import Mathlib

/-!
Verification development for `folder_size_report.py`, a disk-usage scanner:
it walks a directory tree with `os.walk`, sums direct file sizes per
directory (`own_size`), aggregates recursive totals (`total_size`) by a
post-order pass over paths sorted by separator count, ranks directories with
`heapq.nlargest`, and renders a bounded tree view.

Modelling conventions, used throughout:

* Python `str` is modelled as `List Char` (`PyStr`); path functions
  (`os.path.join`, `os.path.dirname`, `str.rstrip`, `str.count`) are
  translated for POSIX path semantics (`os.sep = '/'`).
* Python `dict` is modelled as an insertion-ordered association list
  (`Dict`): lookup finds the first matching key, updating an existing key
  keeps its position, inserting a fresh key appends.  This matches CPython
  dict semantics including iteration order.
* The filesystem is a finite tree of entries (`FSEntry`).  Regular files and
  symlinks to files carry the result of `os.path.getsize` as an
  `Option Nat` (`none` models an `OSError`; `getsize` follows symlinks, so a
  symlink-to-file carries its target's size).  A directory entry carries an
  `ok` flag: `ok = false` models `os.scandir` raising a permission or I/O
  error for it, in which case `os.walk` silently skips the directory (it
  yields no triple for it).  Symlinks to directories are listed in
  `dirnames` but never walked into (`followlinks=False`).
* `os.path.abspath` is the identity on the already-absolute, normalized
  paths produced here, so `abs_dir = os.path.abspath(dirpath)` is modelled
  as `dirpath` itself.
* `os.walk` is modelled as the list of `(dirpath, dirnames, filenames)`
  triples it yields, in depth-first top-down order; each filename is paired
  with its `getsize` outcome.
* CPython iterates `sorted(set(total_size) | set(children), ...)`; the
  iteration order of the set is implementation-defined, so we fix the
  canonical enumeration `(keys total_size ++ keys children).dedup` and apply
  the same stable sort (`sorted(..., key=count, reverse=True)`).
* `human_size` (floating-point formatting) and the exact printed glyphs are
  presentation-only and are not modelled; the tree renderer is modelled as
  the tree of `(path, depth, size)` nodes it prints, in print order.
-/

/-- Python `str`, modelled as its list of characters. -/
abbrev PyStr := List Char

/-- `os.sep` on POSIX. -/
def osSep : Char := '/'

/-- `p.count(os.sep)` for a POSIX path. -/
def countSep (p : PyStr) : Nat := p.count '/'

/-- `p.rstrip("\\/")`: drop trailing forward and backward slashes. -/
def rstripSeps (p : PyStr) : PyStr :=
  (p.reverse.dropWhile (fun c => c = '/' || c = '\\')).reverse

/-- The local `head = p[:i]` of CPython's `posixpath.dirname`, where `i` is
the position just past the last slash: everything up to and including the
final slash. -/
def dirnameHead (p : PyStr) : PyStr :=
  (p.reverse.dropWhile (fun c => c ≠ '/')).reverse

/-- `posixpath.dirname(p)`: `head = p[:rfind('/')+1]`; if `head` is nonempty
and not all slashes, its trailing slashes are stripped (translated from
CPython's `posixpath.dirname`; when `p` has no slash, `head` is empty). -/
def dirname (p : PyStr) : PyStr :=
  if '/' ∈ p then
    if (dirnameHead p).any (fun c => c ≠ '/') then
      ((dirnameHead p).reverse.dropWhile (fun c => c = '/')).reverse
    else dirnameHead p
  else []

/-- `posixpath.join(p, n)` for two components (translated from CPython:
an absolute second component wins; otherwise a separator is added unless
the first component is empty or already ends with one). -/
def joinPath (p n : PyStr) : PyStr :=
  if n.head? = some '/' then n
  else if p = [] ∨ p.getLast? = some '/' then p ++ n
  else p ++ '/' :: n

/-- A Python `dict` with keys of type `PyStr`: an insertion-ordered
association list. -/
abbrev Dict (V : Type) := List (PyStr × V)

/-- `m[k]` lookup returning `none` when the key is absent. -/
def dictGet {V : Type} (m : Dict V) (k : PyStr) : Option V :=
  (m.find? (fun q => q.1 = k)).map (fun q => q.2)

/-- `m.get(k, d)`. -/
def dgetD {V : Type} (m : Dict V) (k : PyStr) (d : V) : V :=
  (dictGet m k).getD d

/-- `m[k] = v`: update in place if the key exists (keeping its position),
otherwise append the new pair, as CPython dicts do. -/
def dictInsert {V : Type} (m : Dict V) (k : PyStr) (v : V) : Dict V :=
  if m.any (fun q => q.1 = k) then m.map (fun q => if q.1 = k then (k, v) else q)
  else m ++ [(k, v)]

/-- `list(m.keys())`. -/
def dkeys {V : Type} (m : Dict V) : List PyStr := m.map (fun q => q.1)

/-- One entry of a directory listing, as `os.scandir` classifies it.
A `dir` entry's `ok = false` models `os.scandir` raising for it when the
walk reaches it; its (unreachable) entries are still carried so the tree
stays a plain inductive value.  `file` and `symlinkFile` carry the
`os.path.getsize` outcome (`none` = `OSError`); `getsize` follows links, so
`symlinkFile` carries the target's size. -/
inductive FSEntry : Type where
  | file (name : PyStr) (size : Option Nat)
  | dir (name : PyStr) (ok : Bool) (entries : List FSEntry)
  | symlinkDir (name : PyStr)
  | symlinkFile (name : PyStr) (size : Option Nat)

/-- The name under which an entry appears in its directory. -/
def entryName : FSEntry → PyStr
  | .file n _ => n
  | .dir n _ _ => n
  | .symlinkDir n => n
  | .symlinkFile n _ => n

/-- Entries that `os.walk` reports in `dirnames`: `entry.is_dir()` follows
symlinks, so both real directories and symlinks to directories qualify. -/
def entryDirname? : FSEntry → Option PyStr
  | .dir n _ _ => some n
  | .symlinkDir n => some n
  | _ => none

/-- Entries that `os.walk` reports in `filenames` (everything not a
directory), paired with their `os.path.getsize` outcome. -/
def entryFile? : FSEntry → Option (PyStr × Option Nat)
  | .file n s => some (n, s)
  | .symlinkFile n s => some (n, s)
  | _ => none

/-- One `(dirpath, dirnames, filenames)` triple yielded by `os.walk`,
with each filename paired with its `os.path.getsize` outcome. -/
structure WalkTriple : Type where
  dirpath : PyStr
  dirnames : List PyStr
  files : List (PyStr × Option Nat)
deriving DecidableEq, Repr

mutual
/-- The triples `os.walk` yields for a directory at path `p` whose
`os.scandir` succeeded with listing `es`, in top-down depth-first order. -/
def walkDir (p : PyStr) (es : List FSEntry) : List WalkTriple :=
  ⟨p, es.filterMap entryDirname?, es.filterMap entryFile?⟩ :: walkKids p es

/-- The triples contributed by the subdirectories among `es`:  `os.walk`
descends only into real (non-symlink) directories, and a directory whose
`os.scandir` raises is skipped silently (`onerror=None`), yielding nothing. -/
def walkKids (p : PyStr) : List FSEntry → List WalkTriple
  | [] => []
  | FSEntry.dir n ok sub :: rest =>
      (if ok then walkDir (joinPath p n) sub else []) ++ walkKids p rest
  | _ :: rest => walkKids p rest
end

/-- `os.walk(root)`: if even the root's `os.scandir` raises, the walk
yields nothing at all. -/
def osWalk (root : PyStr) (ok : Bool) (es : List FSEntry) : List WalkTriple :=
  if ok then walkDir root es else []

mutual
/-- Paths of reached directories whose enumeration raises (`ok = false`):
those listed in a successfully enumerated directory, directly or deeper. -/
def badDirs (p : PyStr) (es : List FSEntry) : List PyStr := badKids p es

/-- Helper for `badDirs`, scanning one listing. -/
def badKids (p : PyStr) : List FSEntry → List PyStr
  | [] => []
  | FSEntry.dir n ok sub :: rest =>
      (if ok then badDirs (joinPath p n) sub else [joinPath p n]) ++ badKids p rest
  | _ :: rest => badKids p rest
end

/-- The `own_size[abs_dir] += os.path.getsize(file_path)` step for one
filename.  Reading `own_size[abs_dir]` on a `defaultdict(int)` materializes
the key with `0` *before* `getsize` runs, so the key persists even when
`getsize` raises; on success the sum is stored. -/
def addOwn (ow : Dict Nat) (p : PyStr) (f : PyStr × Option Nat) : Dict Nat :=
  let cur := dgetD ow p 0
  let ow' := dictInsert ow p cur
  match f.2 with
  | some s => dictInsert ow' p (cur + s)
  | none => ow'

/-- The `own_size` map built by the walk loop: for each yielded triple, sum
the direct file sizes, skipping files whose size lookup raises. -/
def ownMap (ts : List WalkTriple) : Dict Nat :=
  ts.foldl (fun ow t => t.files.foldl (fun ow' f => addOwn ow' t.dirpath f) ow) []

/-- The `children[abs_dir].append(os.path.join(abs_dir, name))` step. -/
def addChild (ch : Dict (List PyStr)) (p n : PyStr) : Dict (List PyStr) :=
  dictInsert ch p (dgetD ch p [] ++ [joinPath p n])

/-- The `children` map built by the walk loop. -/
def childrenMap (ts : List WalkTriple) : Dict (List PyStr) :=
  ts.foldl (fun ch t => t.dirnames.foldl (fun ch' n => addChild ch' t.dirpath n) ch) []

/-- `parent = os.path.dirname(directory.rstrip("\\/"))`, followed by the
guard `if parent and directory != parent`: the parent a directory's total
is added into, or `none` when the guard refuses. -/
def addTarget (c : PyStr) : Option PyStr :=
  if dirname (rstripSeps c) ≠ [] ∧ c ≠ dirname (rstripSeps c) then
    some (dirname (rstripSeps c))
  else none

/-- One iteration of the aggregation loop:
`total_size[parent] = total_size.get(parent, 0) + total_size.get(directory, 0)`. -/
def procOne (m : Dict Nat) (d : PyStr) : Dict Nat :=
  match addTarget d with
  | some parent => dictInsert m parent (dgetD m parent 0 + dgetD m d 0)
  | none => m

/-- `all_dirs = set(total_size) | set(children)`: CPython's set iteration
order is implementation-defined; we fix the canonical enumeration below
(membership and multiplicity agree with the set). -/
def allDirsOf (total₀ : Dict Nat) (children : Dict (List PyStr)) : List PyStr :=
  (dkeys total₀ ++ dkeys children).dedup

/-- `sorted(all_dirs, key=lambda p: p.count(os.sep), reverse=True)`:
a stable descending sort by separator count.  Python's `sorted` is a stable
sort, and a stable sort's output is uniquely determined by the key order
and the input order, so we model it by insertion sort (the simplest stable
sort). -/
def sortBySepCount (l : List PyStr) : List PyStr :=
  List.insertionSort (fun a b => countSep b ≤ countSep a) l

/-- The `total_size.setdefault(d, 0)` step of the final loop. -/
def setdefaultZero (m : Dict Nat) (d : PyStr) : Dict Nat :=
  if (dictGet m d).isSome then m else dictInsert m d 0

/-- `walk_and_collect(root)`: returns `(total_size, children, visited_dirs)`.
Translated line by line from the source: walk and collect `own_size` and
`children`, copy `own_size` into `total_size`, aggregate child totals into
parents processing deeper paths first, then `setdefault` every discovered
directory to `0`. -/
def walk_and_collect (root : PyStr) (ok : Bool) (es : List FSEntry) :
    Dict Nat × Dict (List PyStr) × Nat :=
  let ts := osWalk root ok es
  let own := ownMap ts
  let children := childrenMap ts
  let total₀ : Dict Nat := own
  let allDirs := allDirsOf total₀ children
  let total₁ := (sortBySepCount allDirs).foldl procOne total₀
  let total := allDirs.foldl setdefaultZero total₁
  (total, children, ts.length)

/-- `heapq.nlargest(n, total_size.items(), key=lambda x: x[1])`: documented
as equivalent to `sorted(iterable, key=key, reverse=True)[:n]`, a stable
descending selection (modelled, like every stable sort here, by insertion
sort). -/
def nlargest (n : Nat) (items : List (PyStr × Nat)) : List (PyStr × Nat) :=
  (List.insertionSort (fun a b => b.2 ≤ a.2) items).take n

/-- `build_largest_child_map`: re-sort every child list by recursive size,
descending (Python's `sorted` with `reverse=True` is stable). -/
def build_largest_child_map (children : Dict (List PyStr)) (total_size : Dict Nat) :
    Dict (List PyStr) :=
  children.map (fun q =>
    (q.1, List.insertionSort (fun a b => dgetD total_size b 0 ≤ dgetD total_size a 0) q.2))

/-- One printed node of the tree view: its path, depth, the size shown on
its line (`total_size.get(node, 0)`), and its printed children in order. -/
structure RNode : Type where
  path : PyStr
  depth : Nat
  size : Nat
  kids : List RNode
deriving Repr

/-- `_print_node` from `print_tree`, as the tree of nodes it prints: the
node's line shows `total_size.get(node, 0)`; if `depth >= depth_limit` it
returns before recursing; otherwise it recurses into
`ordered_children.get(node, [])[:per_level_limit]` at `depth + 1`. -/
def printNode (ordered : Dict (List PyStr)) (total_size : Dict Nat)
    (depth_limit per_level_limit : Nat) (node : PyStr) (depth : Nat) : RNode :=
  if depth_limit ≤ depth then ⟨node, depth, dgetD total_size node 0, []⟩
  else
    ⟨node, depth, dgetD total_size node 0,
      ((dgetD ordered node []).take per_level_limit).map
        (fun c => printNode ordered total_size depth_limit per_level_limit c (depth + 1))⟩
termination_by depth_limit - depth
decreasing_by omega

/-- `print_tree(root, children, total_size, depth_limit, per_level_limit)`:
builds the re-sorted child map and prints from the (already absolute) root
at depth 0. -/
def print_tree (root : PyStr) (children : Dict (List PyStr)) (total_size : Dict Nat)
    (depth_limit per_level_limit : Nat) : RNode :=
  printNode (build_largest_child_map children total_size) total_size
    depth_limit per_level_limit root 0

/-- All nodes of a printed tree (the tree itself and, recursively, the
subtrees of its children). -/
def allSubtrees (t : RNode) : List RNode :=
  t :: t.kids.attach.flatMap (fun c => allSubtrees c.1)
decreasing_by
  have h1 := List.sizeOf_lt_of_mem c.2
  cases t
  simp_all
  omega

/-- Claim-side definition, following the spec's words for `ownSize`:
"sum of byte sizes of direct, non-symlink files in this directory",
with entries whose size lookup fails skipped. -/
def specOwnSize (es : List FSEntry) : Nat :=
  (es.map (fun e => match e with
    | .file _ (some s) => s
    | _ => 0)).sum

/-- The sum of the sizes the walk loop manages to read in one directory:
each successful `getsize` contributes its value, failures contribute 0. -/
def sumFiles (fs : List (PyStr × Option Nat)) : Nat :=
  (fs.map (fun f => f.2.getD 0)).sum

/-- A usable directory or file name: nonempty and free of both path
separators (`os.scandir` never yields names containing the separator). -/
def cleanName (n : PyStr) : Prop := n ≠ [] ∧ '/' ∉ n ∧ '\\' ∉ n

instance : DecidablePred cleanName := fun n => by unfold cleanName; infer_instance

/-- A normalized directory path as produced by `os.path.abspath`: either
the filesystem root `/` or a nonempty path without a trailing slash. -/
def normPath (p : PyStr) : Prop := p = ['/'] ∨ (p ≠ [] ∧ p.getLast? ≠ some '/')

instance : DecidablePred normPath := fun p => by unfold normPath; infer_instance

mutual
/-- Well-formedness of a directory listing, as real filesystems guarantee:
entry names are clean and pairwise distinct within the listing, and
sub-listings are well-formed. -/
def wfFS : List FSEntry → Prop
  | [] => True
  | e :: rest =>
      cleanName (entryName e) ∧ wfEntry e ∧
      (∀ x ∈ rest, entryName x ≠ entryName e) ∧ wfFS rest

/-- Well-formedness of one entry (recurses into directory listings). -/
def wfEntry : FSEntry → Prop
  | .dir _ _ sub => wfFS sub
  | _ => True
end

mutual
instance wfFS.dec : (es : List FSEntry) → Decidable (wfFS es)
  | [] => by unfold wfFS; infer_instance
  | e :: rest => by
      unfold wfFS
      have := wfEntry.dec e
      have := wfFS.dec rest
      infer_instance

instance wfEntry.dec : (e : FSEntry) → Decidable (wfEntry e)
  | .file n s => by unfold wfEntry; infer_instance
  | .dir n ok sub => by unfold wfEntry; exact wfFS.dec sub
  | .symlinkDir n => by unfold wfEntry; infer_instance
  | .symlinkFile n s => by unfold wfEntry; infer_instance
end

/-! ### Dictionary lemmas -/

theorem dictGet_nil {V : Type} (k : PyStr) : dictGet ([] : Dict V) k = none := rfl

theorem dictGet_cons {V : Type} (a : PyStr × V) (m : Dict V) (k : PyStr) :
    dictGet (a :: m) k = if a.1 = k then some a.2 else dictGet m k := by
  by_cases h : a.1 = k <;> simp [dictGet, List.find?_cons, h]

theorem dictGet_map_update {V : Type} (m : Dict V) (k : PyStr) (v : V)
    (h : ∃ q ∈ m, q.1 = k) :
    dictGet (m.map (fun q => if q.1 = k then (k, v) else q)) k = some v := by
  induction m with
  | nil =>
    rcases h with ⟨q, hq, _⟩
    exact absurd hq (List.not_mem_nil q)
  | cons a m ih =>
    by_cases hak : a.1 = k
    · simp [List.map_cons, hak, dictGet_cons]
    · have h' : ∃ q ∈ m, q.1 = k := by
        rcases h with ⟨q, hq, hqk⟩
        rcases List.mem_cons.mp hq with rfl | hq'
        · exact absurd hqk hak
        · exact ⟨q, hq', hqk⟩
      simpa [List.map_cons, hak, dictGet_cons] using ih h'

theorem dictGet_map_update_ne {V : Type} (m : Dict V) (k : PyStr) (v : V)
    (k' : PyStr) (h : k' ≠ k) :
    dictGet (m.map (fun q => if q.1 = k then (k, v) else q)) k' = dictGet m k' := by
  induction m with
  | nil => rfl
  | cons a m ih =>
    simp only [List.map_cons]
    by_cases hak : a.1 = k
    · rw [if_pos hak, dictGet_cons, dictGet_cons]
      rw [if_neg (show ¬(k, v).1 = k' from fun hk => h hk.symm)]
      rw [if_neg (show ¬a.1 = k' from fun hk' => h (hk'.symm.trans hak))]
      exact ih
    · rw [if_neg hak, dictGet_cons, dictGet_cons]
      by_cases hak' : a.1 = k' <;> simp [hak', ih]

theorem dictGet_insert_self {V : Type} (m : Dict V) (k : PyStr) (v : V) :
    dictGet (dictInsert m k v) k = some v := by
  unfold dictInsert
  split
  case isTrue h =>
    apply dictGet_map_update
    rcases List.any_eq_true.mp h with ⟨q, hq, hqk⟩
    exact ⟨q, hq, of_decide_eq_true hqk⟩
  case isFalse h =>
    have hnone : List.find? (fun q => decide (q.1 = k)) m = none := by
      rw [List.find?_eq_none]
      intro x hx hxk
      exact h (List.any_eq_true.mpr ⟨x, hx, hxk⟩)
    simp [dictGet, List.find?_append, hnone, List.find?_cons]

theorem dictGet_insert_ne {V : Type} (m : Dict V) (k : PyStr) (v : V)
    (k' : PyStr) (h : k' ≠ k) :
    dictGet (dictInsert m k v) k' = dictGet m k' := by
  unfold dictInsert
  split
  case isTrue _ => exact dictGet_map_update_ne m k v k' h
  case isFalse _ =>
    have hfalse : (decide ((k, v).1 = k')) = false := by
      simp only [decide_eq_false_iff_not]
      exact fun hk => h hk.symm
    simp [dictGet, List.find?_append, List.find?_cons, hfalse]

theorem dgetD_insert_self {V : Type} (m : Dict V) (k : PyStr) (v d : V) :
    dgetD (dictInsert m k v) k d = v := by
  simp [dgetD, dictGet_insert_self]

theorem dgetD_insert_ne {V : Type} (m : Dict V) (k : PyStr) (v : V)
    (k' : PyStr) (d : V) (h : k' ≠ k) :
    dgetD (dictInsert m k v) k' d = dgetD m k' d := by
  simp [dgetD, dictGet_insert_ne m k v k' h]

theorem dictGet_eq_none_iff {V : Type} (m : Dict V) (k : PyStr) :
    dictGet m k = none ↔ k ∉ dkeys m := by
  simp only [dictGet, Option.map_eq_none', List.find?_eq_none, dkeys, List.mem_map]
  constructor
  · rintro h ⟨q, hq, rfl⟩
    exact h q hq (by simp)
  · intro h x hx hxk
    exact h ⟨x, hx, of_decide_eq_true hxk⟩

theorem dictGet_isSome_iff {V : Type} (m : Dict V) (k : PyStr) :
    (dictGet m k).isSome = true ↔ k ∈ dkeys m := by
  rw [Option.isSome_iff_ne_none]
  constructor
  · intro h
    by_contra hk
    exact h ((dictGet_eq_none_iff m k).mpr hk)
  · intro h hc
    exact (dictGet_eq_none_iff m k).mp hc h

theorem mem_dkeys_insert {V : Type} (m : Dict V) (k : PyStr) (v : V) (k' : PyStr) :
    k' ∈ dkeys (dictInsert m k v) ↔ k' ∈ dkeys m ∨ k' = k := by
  by_cases h : k' = k
  · subst h
    simp only [or_true, iff_true]
    rw [← dictGet_isSome_iff, dictGet_insert_self]
    rfl
  · rw [← dictGet_isSome_iff, ← dictGet_isSome_iff, dictGet_insert_ne m k v k' h]
    simp [h]

theorem dictGet_mem {V : Type} (m : Dict V) (k : PyStr) (v : V)
    (h : dictGet m k = some v) : (k, v) ∈ m := by
  unfold dictGet at h
  rcases Option.map_eq_some'.mp h with ⟨q, hq, hq2⟩
  have h1 := List.mem_of_find?_eq_some hq
  have h2 : q.1 = k :=
    of_decide_eq_true (@List.find?_some _ (fun q => decide (q.1 = k)) q m hq)
  rcases q with ⟨a, b⟩
  cases h2
  cases hq2
  exact h1

/-! ### Path lemmas (POSIX semantics of the source's path manipulations) -/

theorem dropWhile_append_all {q : Char → Bool} (l₁ l₂ : List Char)
    (h : ∀ a ∈ l₁, q a = true) :
    List.dropWhile q (l₁ ++ l₂) = List.dropWhile q l₂ := by
  induction l₁ with
  | nil => rfl
  | cons a l₁ ih =>
    rw [List.cons_append, List.dropWhile_cons, if_pos (h a (List.mem_cons_self a l₁))]
    exact ih (fun x hx => h x (List.mem_cons_of_mem a hx))

theorem dropWhile_head_false {q : Char → Bool} (l : List Char) (a : Char)
    (h : (List.dropWhile q l).head? = some a) : q a = false := by
  induction l with
  | nil => simp [List.dropWhile] at h
  | cons c l ih =>
    rw [List.dropWhile_cons] at h
    by_cases hc : q c
    · rw [if_pos hc] at h
      exact ih h
    · rw [if_neg hc] at h
      simp only [List.head?] at h
      cases h
      exact Bool.of_not_eq_true hc

/-- The characteristic append form of `posixpath.join` on a normalized
first component and a clean name. -/
theorem joinPath_eq (p n : PyStr) (hp : normPath p) (hn : cleanName n) :
    joinPath p n = p ++ (if p = ['/'] then [] else ['/']) ++ n := by
  rcases hn with ⟨hne, hslash, -⟩
  have hhead : n.head? ≠ some '/' := by
    intro h
    rcases n with - | ⟨c, t⟩
    · simp at h
    · simp only [List.head?] at h
      cases h
      exact hslash (List.mem_cons_self _ _)
  rcases hp with h1 | ⟨h2, h3⟩
  · subst h1
    rw [joinPath, if_neg hhead, if_pos]
    · simp
    · right
      rfl
  · rw [joinPath, if_neg hhead, if_neg, if_neg (fun h : p = ['/'] => by simp [h] at h3)]
    · simp
    · rintro (h | h)
      · exact h2 h
      · exact h3 h

theorem length_joinPath (p n : PyStr) (hp : normPath p) (hn : cleanName n) :
    p.length < (joinPath p n).length := by
  rw [joinPath_eq p n hp hn]
  rcases n with - | ⟨c, t⟩
  · exact absurd rfl hn.1
  · by_cases h : p = ['/'] <;> simp [h]

theorem rstripSeps_of_getLast (p : PyStr) (c : Char) (h : p.getLast? = some c)
    (h2 : (c = '/' ∨ c = '\\') → False) : rstripSeps p = p := by
  unfold rstripSeps
  have hrev : p.reverse.head? = some c := by rw [List.head?_reverse]; exact h
  rcases hr : p.reverse with - | ⟨a, t⟩
  · rw [hr] at hrev; simp at hrev
  · rw [hr] at hrev
    simp only [List.head?] at hrev
    cases hrev
    have hpred : ¬((decide (c = '/') || decide (c = '\\')) = true) := by
      simp only [Bool.or_eq_true, decide_eq_true_eq]
      exact h2
    rw [List.dropWhile_cons, if_neg hpred, ← hr, List.reverse_reverse]

theorem getLast?_joinPath (p n : PyStr) (hp : normPath p) (hn : cleanName n) :
    (joinPath p n).getLast? = n.getLast? := by
  rw [joinPath_eq p n hp hn, List.append_assoc, List.getLast?_append, List.getLast?_append]
  rcases n with - | ⟨c, t⟩
  · exact absurd rfl hn.1
  · have : (c :: t).getLast? = some ((c :: t).getLast (by simp)) := List.getLast?_eq_getLast _ _
    rw [this]
    rfl

theorem rstripSeps_joinPath (p n : PyStr) (hp : normPath p) (hn : cleanName n) :
    rstripSeps (joinPath p n) = joinPath p n := by
  have hne : n ≠ [] := hn.1
  have hlast : n.getLast? = some (n.getLast hne) := List.getLast?_eq_getLast _ _
  apply rstripSeps_of_getLast _ (n.getLast hne)
  · rw [getLast?_joinPath p n hp hn]; exact hlast
  · intro hcc
    have hmem := List.getLast_mem hne
    rcases hcc with h | h
    · exact hn.2.1 (h ▸ hmem)
    · exact hn.2.2 (h ▸ hmem)

theorem dirnameHead_append (x n : PyStr) (hslash : '/' ∉ n) :
    dirnameHead (x ++ '/' :: n) = x ++ ['/'] := by
  unfold dirnameHead
  have h1 : (x ++ '/' :: n).reverse = n.reverse ++ '/' :: x.reverse := by simp
  rw [h1, dropWhile_append_all, List.dropWhile_cons, if_neg (by simp)]
  · simp
  · intro a ha
    simp only [decide_eq_true_eq]
    exact fun hc => hslash (hc ▸ List.mem_reverse.mp ha)

theorem dirname_joinPath (p n : PyStr) (hp : normPath p) (hn : cleanName n) :
    dirname (joinPath p n) = p := by
  rcases hp with h1 | ⟨h2, h3⟩
  · subst h1
    have hj : joinPath ['/'] n = [] ++ '/' :: n := by
      rw [joinPath_eq _ n (Or.inl rfl) hn]; rfl
    rw [hj, dirname, if_pos (by simp), dirnameHead_append [] n hn.2.1, if_neg]
    · rfl
    · simp
  · have hj : joinPath p n = p ++ '/' :: n := by
      rw [joinPath_eq p n (Or.inr ⟨h2, h3⟩) hn]
      rw [if_neg (fun h : p = ['/'] => by simp [h] at h3)]
      simp
    have hlastp : p.getLast? = some (p.getLast h2) := List.getLast?_eq_getLast _ _
    have hlp : p.getLast h2 ≠ '/' := fun hc => h3 (by rw [hlastp, hc])
    rw [hj, dirname, if_pos (by simp), dirnameHead_append p n hn.2.1]
    rw [if_pos]
    · have hrevp : p.reverse.head? = some (p.getLast h2) := by
        rw [List.head?_reverse, hlastp]
      have hrp : (p ++ ['/']).reverse = '/' :: p.reverse := by simp
      rw [hrp, List.dropWhile_cons, if_pos (by simp)]
      rcases hpr : p.reverse with - | ⟨a, t⟩
      · rw [hpr] at hrevp; simp at hrevp
      · rw [hpr] at hrevp
        simp only [List.head?] at hrevp
        cases hrevp
        rw [List.dropWhile_cons, if_neg (by simpa using hlp), ← hpr, List.reverse_reverse]
    · rw [List.any_eq_true]
      refine ⟨p.getLast h2, by simp [List.getLast_mem h2], by simpa using hlp⟩

theorem countSep_joinPath (p n : PyStr) (hp : normPath p) (hn : cleanName n) :
    countSep (joinPath p n) = countSep p + (if p = ['/'] then 0 else 1) := by
  have hcn : countSep n = 0 := by
    unfold countSep
    exact List.count_eq_zero.mpr hn.2.1
  rw [joinPath_eq p n hp hn]
  unfold countSep at *
  by_cases h : p = ['/'] <;> simp [h, List.count_append, hcn]

theorem normPath_joinPath (p n : PyStr) (hp : normPath p) (hn : cleanName n) :
    normPath (joinPath p n) ∧ joinPath p n ≠ ['/'] := by
  have hne : n ≠ [] := hn.1
  have hlast : (joinPath p n).getLast? = some (n.getLast hne) := by
    rw [getLast?_joinPath p n hp hn]
    exact List.getLast?_eq_getLast _ _
  have hnl : n.getLast hne ≠ '/' := fun hc => hn.2.1 (hc ▸ List.getLast_mem hne)
  constructor
  · right
    constructor
    · intro hc
      rw [hc] at hlast
      simp at hlast
    · rw [hlast]
      intro hc
      exact hnl (by injection hc)
  · intro hc
    rw [hc] at hlast
    simp only [List.getLast?] at hlast
    exact hnl (by injection hlast; rename_i h; exact h.symm)

theorem dropWhile_length_le {q : Char → Bool} (l : List Char) :
    (List.dropWhile q l).length ≤ l.length :=
  (List.dropWhile_sublist _).length_le

theorem rstripSeps_length_le (p : PyStr) : (rstripSeps p).length ≤ p.length := by
  unfold rstripSeps
  rw [List.length_reverse]
  calc (p.reverse.dropWhile _).length ≤ p.reverse.length := dropWhile_length_le _
  _ = p.length := List.length_reverse p

theorem rstripSeps_getLast_not_sep (p : PyStr) (c : Char)
    (h : (rstripSeps p).getLast? = some c) : ¬(c = '/' ∨ c = '\\') := by
  intro hcc
  unfold rstripSeps at h
  rw [List.getLast?_reverse] at h
  have h2 := dropWhile_head_false _ c h
  rcases hcc with h3 | h3 <;> simp [h3] at h2

theorem dirnameHead_length_lt (p : PyStr) (hne : p ≠ [])
    (hlast : ∀ c, p.getLast? = some c → c ≠ '/') :
    (dirnameHead p).length < p.length := by
  unfold dirnameHead
  have hc : p.getLast? = some (p.getLast hne) := List.getLast?_eq_getLast _ _
  have hcl : p.getLast hne ≠ '/' := hlast _ hc
  have hrev : p.reverse.head? = some (p.getLast hne) := by
    rw [List.head?_reverse]; exact hc
  rcases hpr : p.reverse with - | ⟨a, t⟩
  · rw [hpr] at hrev; simp at hrev
  · rw [hpr] at hrev
    simp only [List.head?] at hrev
    cases hrev
    rw [List.dropWhile_cons, if_pos (by simpa using hcl), List.length_reverse]
    have h1 : (t.dropWhile (fun c => decide (c ≠ '/'))).length ≤ t.length :=
      dropWhile_length_le t
    have h2 : p.length = t.length + 1 := by
      rw [← List.length_reverse p, hpr]
      rfl
    omega

theorem dirname_length_lt (p : PyStr) (hne : p ≠ [])
    (hlast : ∀ c, p.getLast? = some c → c ≠ '/') (hd : dirname p ≠ []) :
    (dirname p).length < p.length := by
  have hhead := dirnameHead_length_lt p hne hlast
  unfold dirname at hd ⊢
  by_cases hmem : '/' ∈ p
  · rw [if_pos hmem] at hd ⊢
    split
    · calc ((dirnameHead p).reverse.dropWhile (fun c => decide (c = '/'))).reverse.length
          ≤ (dirnameHead p).length := by
            rw [List.length_reverse]
            calc _ ≤ (dirnameHead p).reverse.length := dropWhile_length_le _
            _ = _ := List.length_reverse _
      _ < p.length := hhead
    · exact hhead
  · rw [if_neg hmem] at hd
    exact absurd rfl hd

theorem addTarget_length (c d : PyStr) (h : addTarget c = some d) : d.length < c.length := by
  unfold addTarget at h
  split at h
  case isFalse => exact absurd h (by simp)
  case isTrue hg =>
    have hd : d = dirname (rstripSeps c) := by injection h; rename_i h'; exact h'.symm
    rcases hg with ⟨hne, -⟩
    subst hd
    have hrne : rstripSeps c ≠ [] := by
      intro hr
      rw [hr] at hne
      exact hne (by simp [dirname])
    have hlt : (dirname (rstripSeps c)).length < (rstripSeps c).length := by
      apply dirname_length_lt _ hrne
      · intro c' hc'
        have := rstripSeps_getLast_not_sep c c' hc'
        exact fun hcc => this (Or.inl hcc)
      · exact hne
    calc (dirname (rstripSeps c)).length < (rstripSeps c).length := hlt
    _ ≤ c.length := rstripSeps_length_le c

theorem addTarget_joinPath (p n : PyStr) (hp : normPath p) (hn : cleanName n) :
    addTarget (joinPath p n) = some p := by
  unfold addTarget
  rw [rstripSeps_joinPath p n hp hn, dirname_joinPath p n hp hn]
  rw [if_pos]
  constructor
  · rcases hp with h | ⟨h, -⟩
    · rw [h]; simp
    · exact h
  · intro hc
    have := length_joinPath p n hp hn
    rw [hc] at this
    omega

theorem addTarget_slash : addTarget ['/'] = none := by decide

theorem slashSplit : ∀ (a b x y : PyStr), '/' ∉ a → '/' ∉ b →
    a ++ '/' :: x = b ++ '/' :: y → a = b ∧ x = y := by
  intro a
  induction a with
  | nil =>
    intro b x y ha hb h
    rcases b with - | ⟨d, b'⟩
    · simp only [List.nil_append] at h
      injection h with h1 h2
      exact ⟨rfl, h2⟩
    · simp only [List.nil_append, List.cons_append] at h
      injection h with h1 h2
      exact absurd (h1 ▸ List.mem_cons_self d b') hb
  | cons c a' ih =>
    intro b x y ha hb h
    rcases b with - | ⟨d, b'⟩
    · simp only [List.nil_append, List.cons_append] at h
      injection h with h1 h2
      exact absurd (h1.symm ▸ List.mem_cons_self c a') ha
    · simp only [List.cons_append] at h
      injection h with h1 h2
      subst h1
      have := ih b' x y (fun hm => ha (List.mem_cons_of_mem c hm))
        (fun hm => hb (List.mem_cons_of_mem c hm)) h2
      exact ⟨by rw [this.1], this.2⟩

theorem joinPath_inj (p p' n n' : PyStr) (hp : normPath p) (hp' : normPath p')
    (hn : cleanName n) (hn' : cleanName n')
    (h : joinPath p n = joinPath p' n') : p = p' ∧ n = n' := by
  have hpp : p = p' := by
    have h1 := dirname_joinPath p n hp hn
    have h2 := dirname_joinPath p' n' hp' hn'
    rw [← h1, ← h2, h]
  subst hpp
  refine ⟨rfl, ?_⟩
  rw [joinPath_eq p n hp hn, joinPath_eq p n' hp hn'] at h
  exact List.append_cancel_left h

/-- `q` lies in the subtree of the child named `nm` of the directory at
`p`: it is the child's path itself or a strict slash-extension of it. -/
def underName (p nm q : PyStr) : Prop :=
  q = joinPath p nm ∨ ∃ t, q = joinPath p nm ++ '/' :: t

theorem underName_length (p nm q : PyStr) (hp : normPath p) (hn : cleanName nm)
    (h : underName p nm q) : p.length < q.length := by
  have hj := length_joinPath p nm hp hn
  rcases h with rfl | ⟨t, rfl⟩
  · exact hj
  · calc p.length < (joinPath p nm).length := hj
    _ ≤ _ := by simp

/-! ### Correctness of the post-order aggregation loop -/

theorem addTarget_ne_self (c d : PyStr) (h : addTarget c = some d) : d ≠ c := by
  unfold addTarget at h
  split at h
  case isFalse => exact absurd h (by simp)
  case isTrue hg =>
    injection h with h'
    subst h'
    exact fun hc => hg.2 hc.symm

/-- An upper bound on the lengths of the paths in `L`. -/
def maxLen (L : List PyStr) : Nat := L.foldr (fun p m => max p.length m) 0

theorem le_maxLen (L : List PyStr) (p : PyStr) (h : p ∈ L) : p.length ≤ maxLen L := by
  induction L with
  | nil => exact absurd h (List.not_mem_nil p)
  | cons a L ih =>
    rcases List.mem_cons.mp h with rfl | h'
    · simp [maxLen]
    · have := ih h'
      simp only [maxLen, List.foldr] at *
      omega

/-- The fully aggregated total the loop computes for a directory `d`, as a
recursive equation: its initial value in the copied map, plus the final
totals of every processed directory whose derived parent is `d`.  This is
well defined because a derived parent is strictly shorter than its child. -/
def S (L : List PyStr) (m₀ : Dict Nat) (d : PyStr) : Nat :=
  dgetD m₀ d 0 +
    ((L.filter (fun c => addTarget c = some d)).attach.map (fun c => S L m₀ c.1)).sum
termination_by maxLen L + 1 - d.length
decreasing_by
  rcases List.mem_filter.mp c.2 with ⟨hmem, htarget⟩
  have h1 : addTarget c.1 = some d := of_decide_eq_true htarget
  have h2 := addTarget_length c.1 d h1
  have h3 := le_maxLen L c.1 hmem
  omega

theorem S_eq (L : List PyStr) (m₀ : Dict Nat) (d : PyStr) :
    S L m₀ d = dgetD m₀ d 0 +
      ((L.filter (fun c => addTarget c = some d)).map (S L m₀)).sum := by
  rw [S, List.attach_map_val]

theorem procOne_none (m : Dict Nat) (c : PyStr) (h : addTarget c = none) :
    procOne m c = m := by
  unfold procOne
  rw [h]

theorem procOne_some (m : Dict Nat) (c t : PyStr) (h : addTarget c = some t) :
    procOne m c = dictInsert m t (dgetD m t 0 + dgetD m c 0) := by
  unfold procOne
  rw [h]

/-- Main lemma on the aggregation loop, as a fold invariant: if whenever the
loop adds a directory `c` into a parent `d` that itself occurs in the list,
either `c` is processed before `d` or `d`'s own addition is refused by the
guard, then after the whole fold every path holds its fully aggregated
total `S`. -/
theorem foldl_procOne_go (L : List PyStr) (m₀ : Dict Nat)
    (hord : L.Pairwise (fun x y => addTarget y = some x → addTarget x = none)) :
    ∀ (R P : List PyStr) (m : Dict Nat), P ++ R = L →
    (∀ d, dgetD m d 0 = dgetD m₀ d 0 +
      ((P.filter (fun c => addTarget c = some d)).map (S L m₀)).sum) →
    ∀ d, dgetD (R.foldl procOne m) d 0 = dgetD m₀ d 0 +
      ((L.filter (fun c => addTarget c = some d)).map (S L m₀)).sum := by
  intro R
  induction R with
  | nil =>
    intro P m hPR hinv d
    rw [List.foldl_nil]
    rw [List.append_nil] at hPR
    rw [hinv d, hPR]
  | cons c R' ih =>
    intro P m hPR hinv d
    rw [List.foldl_cons]
    have hPR' : (P ++ [c]) ++ R' = L := by
      rw [List.append_assoc]
      simpa using hPR
    have hrelR' : ∀ c' ∈ R', addTarget c' = some c → addTarget c = none := by
      have hLp : (P ++ c :: R').Pairwise
          (fun x y => addTarget y = some x → addTarget x = none) := by
        rw [hPR]; exact hord
      have := (List.pairwise_append.mp hLp).2.1
      exact (List.pairwise_cons.mp this).1
    rcases haT : addTarget c with - | t
    · rw [procOne_none m c haT]
      apply ih (P ++ [c]) m hPR'
      intro d'
      rw [hinv d', List.filter_append]
      have : List.filter (fun c' => addTarget c' = some d') [c] = [] := by
        simp [List.filter, haT]
      rw [this, List.append_nil]
    · rw [procOne_some m c t haT]
      have hgetc : dgetD m c 0 = S L m₀ c := by
        rw [hinv c, S_eq L m₀ c]
        have hLfilter : L.filter (fun c' => addTarget c' = some c)
            = P.filter (fun c' => addTarget c' = some c) := by
          rw [← hPR, List.filter_append]
          have h1 : List.filter (fun c' => addTarget c' = some c) (c :: R') = [] := by
            rw [List.filter_cons]
            rw [if_neg (by simp [haT]; exact (addTarget_ne_self c t haT).symm ∘ Eq.symm)]
            rw [List.filter_eq_nil_iff]
            intro c' hc' hdec
            have h2 := of_decide_eq_true hdec
            rw [hrelR' c' hc' h2] at haT
            exact Option.noConfusion haT
          rw [h1, List.append_nil]
        rw [hLfilter]
      apply ih (P ++ [c]) _ hPR'
      intro d'
      by_cases hd : d' = t
      · subst hd
        rw [dgetD_insert_self]
        rw [List.filter_append]
        have : List.filter (fun c' => addTarget c' = some d') [c] = [c] := by
          simp [List.filter, haT]
        rw [this, List.map_append, List.sum_append, hinv d', hgetc]
        simp only [List.map_cons, List.map_nil, List.sum_cons, List.sum_nil]
        omega
      · rw [dgetD_insert_ne _ _ _ _ _ hd]
        rw [hinv d', List.filter_append]
        have : List.filter (fun c' => addTarget c' = some d') [c] = [] := by
          have hfalse : (decide (addTarget c = some d')) = false := by
            rw [haT]
            simp only [decide_eq_false_iff_not]
            intro hc
            injection hc with hc'
            exact hd hc'.symm
          simp [List.filter, hfalse]
        rw [this, List.append_nil]

/-- After the aggregation fold, every path holds its fully aggregated total. -/
theorem foldl_procOne_eq_S (L : List PyStr) (m₀ : Dict Nat)
    (hord : L.Pairwise (fun x y => addTarget y = some x → addTarget x = none)) (d : PyStr) :
    dgetD (L.foldl procOne m₀) d 0 = S L m₀ d := by
  rw [S_eq]
  exact foldl_procOne_go L m₀ hord L [] m₀ rfl (fun d' => by simp) d

/-! ### The `setdefault` loop and key bookkeeping -/

theorem dgetD_setdefaultZero (m : Dict Nat) (x d : PyStr) :
    dgetD (setdefaultZero m x) d 0 = dgetD m d 0 := by
  unfold setdefaultZero
  split
  case isTrue => rfl
  case isFalse h =>
    by_cases hdx : d = x
    · subst hdx
      rw [dgetD_insert_self]
      have hnone : dictGet m d = none := by
        cases hg : dictGet m d with
        | none => rfl
        | some v => rw [hg] at h; simp at h
      simp [dgetD, hnone]
    · rw [dgetD_insert_ne _ _ _ _ _ hdx]

theorem dgetD_setdefault_fold (L : List PyStr) (m : Dict Nat) (d : PyStr) :
    dgetD (L.foldl setdefaultZero m) d 0 = dgetD m d 0 := by
  induction L generalizing m with
  | nil => rfl
  | cons x L ih => rw [List.foldl_cons, ih, dgetD_setdefaultZero]

theorem mem_dkeys_setdefaultZero (m : Dict Nat) (x k : PyStr) :
    k ∈ dkeys (setdefaultZero m x) ↔ k ∈ dkeys m ∨ k = x := by
  unfold setdefaultZero
  split
  case isTrue h =>
    constructor
    · exact Or.inl
    · rintro (hk | rfl)
      · exact hk
      · exact (dictGet_isSome_iff m k).mp h
  case isFalse h => exact mem_dkeys_insert m x 0 k

theorem mem_dkeys_setdefault_fold (L : List PyStr) (m : Dict Nat) (k : PyStr) :
    k ∈ dkeys (L.foldl setdefaultZero m) ↔ k ∈ dkeys m ∨ k ∈ L := by
  induction L generalizing m with
  | nil => simp
  | cons x L ih =>
    rw [List.foldl_cons, ih, mem_dkeys_setdefaultZero]
    simp only [List.mem_cons]
    tauto

theorem mem_dkeys_procOne (m : Dict Nat) (c k : PyStr) :
    k ∈ dkeys (procOne m c) ↔ k ∈ dkeys m ∨ addTarget c = some k := by
  unfold procOne
  cases haT : addTarget c with
  | none => simp
  | some t =>
    rw [mem_dkeys_insert]
    constructor
    · rintro (hk | rfl)
      · exact Or.inl hk
      · exact Or.inr rfl
    · rintro (hk | hsome)
      · exact Or.inl hk
      · injection hsome with h'
        exact Or.inr h'.symm

theorem mem_dkeys_foldl_procOne (L : List PyStr) (m : Dict Nat) (k : PyStr) :
    k ∈ dkeys (L.foldl procOne m) ↔ k ∈ dkeys m ∨ ∃ c ∈ L, addTarget c = some k := by
  induction L generalizing m with
  | nil => simp
  | cons c L ih =>
    rw [List.foldl_cons, ih, mem_dkeys_procOne]
    constructor
    · rintro ((hk | hc) | ⟨c', hc', ht⟩)
      · exact Or.inl hk
      · exact Or.inr ⟨c, List.mem_cons_self c L, hc⟩
      · exact Or.inr ⟨c', List.mem_cons_of_mem c hc', ht⟩
    · rintro (hk | ⟨c', hc', ht⟩)
      · exact Or.inl (Or.inl hk)
      · rcases List.mem_cons.mp hc' with rfl | hc''
        · exact Or.inl (Or.inr ht)
        · exact Or.inr ⟨c', hc'', ht⟩

theorem dictGet_eq_some_getD (m : Dict Nat) (k : PyStr) (h : k ∈ dkeys m) :
    dictGet m k = some (dgetD m k 0) := by
  cases hg : dictGet m k with
  | none => exact absurd ((dictGet_eq_none_iff m k).mp hg) (by simpa using h)
  | some v => simp [dgetD, hg]

/-! ### The collection phase: `own_size` and `children` -/

theorem addOwn_get_self (acc : Dict Nat) (p : PyStr) (f : PyStr × Option Nat) :
    dictGet (addOwn acc p f) p = some (dgetD acc p 0 + f.2.getD 0) := by
  unfold addOwn
  cases f.2 with
  | none => simp [dictGet_insert_self]
  | some s => simp [dictGet_insert_self]

theorem addOwn_get_ne (acc : Dict Nat) (p : PyStr) (f : PyStr × Option Nat)
    (k : PyStr) (h : k ≠ p) : dictGet (addOwn acc p f) k = dictGet acc k := by
  unfold addOwn
  cases f.2 with
  | none => simp [dictGet_insert_ne _ _ _ _ h]
  | some s => simp [dictGet_insert_ne _ _ _ _ h]

theorem ownInner_ne (fs : List (PyStr × Option Nat)) (p : PyStr) (acc : Dict Nat)
    (k : PyStr) (h : k ≠ p) :
    dictGet (fs.foldl (fun ow f => addOwn ow p f) acc) k = dictGet acc k := by
  induction fs generalizing acc with
  | nil => rfl
  | cons f fs ih => rw [List.foldl_cons, ih, addOwn_get_ne _ _ _ _ h]

theorem ownInner_self (fs : List (PyStr × Option Nat)) (p : PyStr) (acc : Dict Nat)
    (h : fs ≠ []) :
    dictGet (fs.foldl (fun ow f => addOwn ow p f) acc) p
      = some (dgetD acc p 0 + sumFiles fs) := by
  induction fs generalizing acc with
  | nil => exact absurd rfl h
  | cons f fs ih =>
    rw [List.foldl_cons]
    rcases fs with - | ⟨f', fs'⟩
    · rw [List.foldl_nil, addOwn_get_self]
      simp [sumFiles]
    · rw [ih _ (by simp)]
      have h1 : dgetD (addOwn acc p f) p 0 = dgetD acc p 0 + f.2.getD 0 := by
        simp [dgetD, addOwn_get_self]
      rw [h1]
      refine congrArg some ?_
      simp only [sumFiles, List.map_cons, List.sum_cons]
      omega

theorem ownFold_untouched (ts : List WalkTriple) (acc : Dict Nat) (k : PyStr)
    (h : ∀ t ∈ ts, t.dirpath ≠ k) :
    dictGet (ts.foldl (fun ow t => t.files.foldl (fun ow' f => addOwn ow' t.dirpath f) ow) acc) k
      = dictGet acc k := by
  induction ts generalizing acc with
  | nil => rfl
  | cons t ts ih =>
    rw [List.foldl_cons, ih _ (fun t' ht' => h t' (List.mem_cons_of_mem t ht'))]
    exact ownInner_ne _ _ _ _ (fun hk => h t (List.mem_cons_self t ts) hk.symm)

theorem ownFold_mem (ts : List WalkTriple) (acc : Dict Nat) (t : WalkTriple)
    (ht : t ∈ ts) (hnd : (ts.map (fun x => x.dirpath)).Nodup) :
    dictGet (ts.foldl (fun ow t' => t'.files.foldl (fun ow' f => addOwn ow' t'.dirpath f) ow) acc)
        t.dirpath
      = if t.files = [] then dictGet acc t.dirpath
        else some (dgetD acc t.dirpath 0 + sumFiles t.files) := by
  induction ts generalizing acc with
  | nil => exact absurd ht (List.not_mem_nil t)
  | cons t' ts ih =>
    rw [List.map_cons, List.nodup_cons] at hnd
    rcases List.mem_cons.mp ht with rfl | hmem
    · rw [List.foldl_cons]
      rw [ownFold_untouched ts _ t.dirpath
        (fun x hx hk => hnd.1 (hk ▸ List.mem_map_of_mem (fun y => y.dirpath) hx))]
      rcases hf : t.files with - | ⟨f, fs⟩
      · rfl
      · rw [if_neg (by simp)]
        rw [← hf, ownInner_self _ _ _ (by rw [hf]; simp)]
    · have hne : t.dirpath ≠ t'.dirpath := by
        intro hk
        exact hnd.1 (hk ▸ List.mem_map_of_mem (fun y => y.dirpath) hmem)
      rw [List.foldl_cons]
      rw [ih _ hmem hnd.2]
      rw [ownInner_ne _ _ _ _ hne]
      have : dgetD (t'.files.foldl (fun ow' f => addOwn ow' t'.dirpath f) acc) t.dirpath 0
          = dgetD acc t.dirpath 0 := by
        simp [dgetD, ownInner_ne _ _ _ _ hne]
      rw [this]

theorem addChild_get_self (acc : Dict (List PyStr)) (p n : PyStr) :
    dictGet (addChild acc p n) p = some (dgetD acc p [] ++ [joinPath p n]) := by
  unfold addChild
  exact dictGet_insert_self _ _ _

theorem addChild_get_ne (acc : Dict (List PyStr)) (p n k : PyStr) (h : k ≠ p) :
    dictGet (addChild acc p n) k = dictGet acc k := by
  unfold addChild
  exact dictGet_insert_ne _ _ _ _ h

theorem childInner_ne (ns : List PyStr) (p : PyStr) (acc : Dict (List PyStr))
    (k : PyStr) (h : k ≠ p) :
    dictGet (ns.foldl (fun ch n => addChild ch p n) acc) k = dictGet acc k := by
  induction ns generalizing acc with
  | nil => rfl
  | cons n ns ih => rw [List.foldl_cons, ih, addChild_get_ne _ _ _ _ h]

theorem childInner_self (ns : List PyStr) (p : PyStr) (acc : Dict (List PyStr))
    (h : ns ≠ []) :
    dictGet (ns.foldl (fun ch n => addChild ch p n) acc) p
      = some (dgetD acc p [] ++ ns.map (joinPath p)) := by
  induction ns generalizing acc with
  | nil => exact absurd rfl h
  | cons n ns ih =>
    rw [List.foldl_cons]
    rcases ns with - | ⟨n', ns'⟩
    · rw [List.foldl_nil, addChild_get_self]
      rfl
    · rw [ih _ (by simp)]
      have h1 : dgetD (addChild acc p n) p [] = dgetD acc p [] ++ [joinPath p n] := by
        simp [dgetD, addChild_get_self]
      rw [h1]
      simp

theorem childFold_untouched (ts : List WalkTriple) (acc : Dict (List PyStr)) (k : PyStr)
    (h : ∀ t ∈ ts, t.dirpath ≠ k) :
    dictGet (ts.foldl (fun ch t => t.dirnames.foldl (fun ch' n => addChild ch' t.dirpath n) ch) acc) k
      = dictGet acc k := by
  induction ts generalizing acc with
  | nil => rfl
  | cons t ts ih =>
    rw [List.foldl_cons, ih _ (fun t' ht' => h t' (List.mem_cons_of_mem t ht'))]
    exact childInner_ne _ _ _ _ (fun hk => h t (List.mem_cons_self t ts) hk.symm)

theorem childFold_mem (ts : List WalkTriple) (acc : Dict (List PyStr)) (t : WalkTriple)
    (ht : t ∈ ts) (hnd : (ts.map (fun x => x.dirpath)).Nodup) :
    dictGet (ts.foldl (fun ch t' => t'.dirnames.foldl (fun ch' n => addChild ch' t'.dirpath n) ch) acc)
        t.dirpath
      = if t.dirnames = [] then dictGet acc t.dirpath
        else some (dgetD acc t.dirpath [] ++ t.dirnames.map (joinPath t.dirpath)) := by
  induction ts generalizing acc with
  | nil => exact absurd ht (List.not_mem_nil t)
  | cons t' ts ih =>
    rw [List.map_cons, List.nodup_cons] at hnd
    rcases List.mem_cons.mp ht with rfl | hmem
    · rw [List.foldl_cons]
      rw [childFold_untouched ts _ t.dirpath
        (fun x hx hk => hnd.1 (hk ▸ List.mem_map_of_mem (fun y => y.dirpath) hx))]
      rcases hf : t.dirnames with - | ⟨n, ns⟩
      · rfl
      · rw [if_neg (by simp)]
        rw [← hf, childInner_self _ _ _ (by rw [hf]; simp)]
    · have hne : t.dirpath ≠ t'.dirpath := by
        intro hk
        exact hnd.1 (hk ▸ List.mem_map_of_mem (fun y => y.dirpath) hmem)
      rw [List.foldl_cons]
      rw [ih _ hmem hnd.2]
      rw [childInner_ne _ _ _ _ hne]
      have : dgetD (t'.dirnames.foldl (fun ch' n => addChild ch' t'.dirpath n) acc) t.dirpath []
          = dgetD acc t.dirpath [] := by
        simp [dgetD, childInner_ne _ _ _ _ hne]
      rw [this]

theorem dictGet_ownMap (ts : List WalkTriple) (t : WalkTriple) (ht : t ∈ ts)
    (hnd : (ts.map (fun x => x.dirpath)).Nodup) :
    dictGet (ownMap ts) t.dirpath
      = if t.files = [] then none else some (sumFiles t.files) := by
  unfold ownMap
  rw [ownFold_mem ts [] t ht hnd]
  split
  · rfl
  · simp [dgetD, dictGet_nil]

theorem dictGet_ownMap_not_mem (ts : List WalkTriple) (k : PyStr)
    (h : ∀ t ∈ ts, t.dirpath ≠ k) : dictGet (ownMap ts) k = none := by
  unfold ownMap
  rw [ownFold_untouched ts [] k h]
  rfl

theorem dictGet_childrenMap (ts : List WalkTriple) (t : WalkTriple) (ht : t ∈ ts)
    (hnd : (ts.map (fun x => x.dirpath)).Nodup) :
    dictGet (childrenMap ts) t.dirpath
      = if t.dirnames = [] then none else some (t.dirnames.map (joinPath t.dirpath)) := by
  unfold childrenMap
  rw [childFold_mem ts [] t ht hnd]
  split
  · rfl
  · simp [dgetD, dictGet_nil]

theorem dictGet_childrenMap_not_mem (ts : List WalkTriple) (k : PyStr)
    (h : ∀ t ∈ ts, t.dirpath ≠ k) : dictGet (childrenMap ts) k = none := by
  unfold childrenMap
  rw [childFold_untouched ts [] k h]
  rfl

theorem mem_dkeys_ownMap (ts : List WalkTriple) (k : PyStr)
    (h : k ∈ dkeys (ownMap ts)) : ∃ t ∈ ts, t.dirpath = k := by
  by_contra hc
  push_neg at hc
  exact (dictGet_eq_none_iff (ownMap ts) k).mp (dictGet_ownMap_not_mem ts k hc) h

theorem mem_dkeys_childrenMap (ts : List WalkTriple) (k : PyStr)
    (h : k ∈ dkeys (childrenMap ts)) : ∃ t ∈ ts, t.dirpath = k := by
  by_contra hc
  push_neg at hc
  exact (dictGet_eq_none_iff (childrenMap ts) k).mp
    (dictGet_childrenMap_not_mem ts k hc) h

/-! ### Disjointness of sibling subtrees, and well-formedness facts -/

theorem joinPath_cancel (p a b x y : PyStr) (hp : normPath p)
    (hca : cleanName a) (hcb : cleanName b)
    (h : joinPath p a ++ x = joinPath p b ++ y) : a ++ x = b ++ y := by
  rw [joinPath_eq p a hp hca, joinPath_eq p b hp hcb] at h
  have h' : p ++ ((if p = ['/'] then [] else ['/']) ++ (a ++ x))
      = p ++ ((if p = ['/'] then [] else ['/']) ++ (b ++ y)) := by
    simpa [List.append_assoc] using h
  exact List.append_cancel_left (List.append_cancel_left h')

theorem underName_name_eq (p nm nm' q : PyStr) (hp : normPath p)
    (hn : cleanName nm) (hn' : cleanName nm')
    (h1 : underName p nm q) (h2 : underName p nm' q) : nm = nm' := by
  have hx1 : ∃ x, q = joinPath p nm ++ x ∧ (x = [] ∨ ∃ t, x = '/' :: t) := by
    rcases h1 with rfl | ⟨t, ht⟩
    · exact ⟨[], by simp, Or.inl rfl⟩
    · exact ⟨'/' :: t, ht, Or.inr ⟨t, rfl⟩⟩
  have hx2 : ∃ x, q = joinPath p nm' ++ x ∧ (x = [] ∨ ∃ t, x = '/' :: t) := by
    rcases h2 with rfl | ⟨t, ht⟩
    · exact ⟨[], by simp, Or.inl rfl⟩
    · exact ⟨'/' :: t, ht, Or.inr ⟨t, rfl⟩⟩
  rcases hx1 with ⟨x, hqx, hxs⟩
  rcases hx2 with ⟨y, hqy, hys⟩
  have hc : nm ++ x = nm' ++ y :=
    joinPath_cancel p nm nm' x y hp hn hn' (by rw [← hqx, ← hqy])
  rcases hxs with rfl | ⟨t, rfl⟩
  · rcases hys with rfl | ⟨t', rfl⟩
    · simpa using hc
    · rw [List.append_nil] at hc
      exact absurd (show ('/' : Char) ∈ nm by
        rw [hc]; exact List.mem_append_right nm' (List.mem_cons_self '/' t')) hn.2.1
  · rcases hys with rfl | ⟨t', rfl⟩
    · rw [List.append_nil] at hc
      exact absurd (show ('/' : Char) ∈ nm' by
        rw [← hc]; exact List.mem_append_right nm (List.mem_cons_self '/' t)) hn'.2.1
    · exact (slashSplit nm nm' t t' hn.2.1 hn'.2.1 hc).1

/-- The subtree of the child named `nm` extends one level down: anything
under a child of `joinPath p nm` is a strict extension of `joinPath p nm`. -/
theorem underName_extend (p nm nm₂ q : PyStr) (hp : normPath p) (hn : cleanName nm)
    (hn₂ : cleanName nm₂) (h : underName (joinPath p nm) nm₂ q) :
    ∃ t, q = joinPath p nm ++ '/' :: t := by
  have hnorm := (normPath_joinPath p nm hp hn).1
  have hne : joinPath p nm ≠ ['/'] := (normPath_joinPath p nm hp hn).2
  have hj₂ : joinPath (joinPath p nm) nm₂ = joinPath p nm ++ '/' :: nm₂ := by
    rw [joinPath_eq _ nm₂ hnorm hn₂, if_neg hne]
    simp
  rcases h with rfl | ⟨t, ht⟩
  · exact ⟨nm₂, hj₂⟩
  · refine ⟨nm₂ ++ '/' :: t, ?_⟩
    rw [ht, hj₂]
    simp

theorem wfFS_head (e : FSEntry) (rest : List FSEntry) (h : wfFS (e :: rest)) :
    cleanName (entryName e) ∧ wfEntry e ∧
      (∀ x ∈ rest, entryName x ≠ entryName e) ∧ wfFS rest := by
  rw [wfFS] at h
  exact h

theorem wfFS_mem_clean (es : List FSEntry) (h : wfFS es) (x : FSEntry) (hx : x ∈ es) :
    cleanName (entryName x) := by
  induction es with
  | nil => exact absurd hx (List.not_mem_nil x)
  | cons e rest ih =>
    rcases wfFS_head e rest h with ⟨hc, -, -, hrest⟩
    rcases List.mem_cons.mp hx with rfl | hx'
    · exact hc
    · exact ih hrest hx'

theorem wfFS_mem_sub (es : List FSEntry) (h : wfFS es) (nm : PyStr) (ok : Bool)
    (sub : List FSEntry) (hx : FSEntry.dir nm ok sub ∈ es) : wfFS sub := by
  induction es with
  | nil => exact absurd hx (List.not_mem_nil _)
  | cons e rest ih =>
    rcases wfFS_head e rest h with ⟨-, he, -, hrest⟩
    rcases List.mem_cons.mp hx with rfl | hx'
    · rw [wfEntry] at he
      exact he
    · exact ih hrest hx'

theorem entryDirname?_name (x : FSEntry) (nm : PyStr) (h : entryDirname? x = some nm) :
    entryName x = nm := by
  cases x <;> simp [entryDirname?, entryName] at h ⊢ <;> try exact h

/-! ### Structural facts about the walk of a well-formed tree -/

theorem walkDir_eq (p : PyStr) (es : List FSEntry) :
    walkDir p es
      = ⟨p, es.filterMap entryDirname?, es.filterMap entryFile?⟩ :: walkKids p es := by
  rw [walkDir]

theorem walkKids_nil (p : PyStr) : walkKids p [] = [] := by rw [walkKids]

theorem walkKids_dir (p nm : PyStr) (ok : Bool) (sub rest : List FSEntry) :
    walkKids p (FSEntry.dir nm ok sub :: rest)
      = (if ok then walkDir (joinPath p nm) sub else []) ++ walkKids p rest := by
  rw [walkKids]

theorem walkKids_file (p nm : PyStr) (s : Option Nat) (rest : List FSEntry) :
    walkKids p (FSEntry.file nm s :: rest) = walkKids p rest := by
  rw [walkKids]
  all_goals
    intro n ok sub h
    cases h

theorem walkKids_symlinkDir (p nm : PyStr) (rest : List FSEntry) :
    walkKids p (FSEntry.symlinkDir nm :: rest) = walkKids p rest := by
  rw [walkKids]
  all_goals
    intro n ok sub h
    cases h

theorem walkKids_symlinkFile (p nm : PyStr) (s : Option Nat) (rest : List FSEntry) :
    walkKids p (FSEntry.symlinkFile nm s :: rest) = walkKids p rest := by
  rw [walkKids]
  all_goals
    intro n ok sub h
    cases h

theorem badDirs_eq (p : PyStr) (es : List FSEntry) : badDirs p es = badKids p es := by
  rw [badDirs]

theorem badKids_nil (p : PyStr) : badKids p [] = [] := by rw [badKids]

theorem badKids_dir (p nm : PyStr) (ok : Bool) (sub rest : List FSEntry) :
    badKids p (FSEntry.dir nm ok sub :: rest)
      = (if ok then badDirs (joinPath p nm) sub else [joinPath p nm]) ++ badKids p rest := by
  rw [badKids]

theorem badKids_file (p nm : PyStr) (s : Option Nat) (rest : List FSEntry) :
    badKids p (FSEntry.file nm s :: rest) = badKids p rest := by
  rw [badKids]
  all_goals
    intro n ok sub h
    cases h

theorem badKids_symlinkDir (p nm : PyStr) (rest : List FSEntry) :
    badKids p (FSEntry.symlinkDir nm :: rest) = badKids p rest := by
  rw [badKids]
  all_goals
    intro n ok sub h
    cases h

theorem badKids_symlinkFile (p nm : PyStr) (s : Option Nat) (rest : List FSEntry) :
    badKids p (FSEntry.symlinkFile nm s :: rest) = badKids p rest := by
  rw [badKids]
  all_goals
    intro n ok sub h
    cases h

/-- The facts about one walk needed by the aggregation proofs, established
simultaneously by induction on the (well-formed) tree: walked paths are
distinct; every walked non-root triple lies under a uniquely named child of
the root and its derived parent is its walk parent, which lists it among
its recorded children; all recorded names are clean and distinct per
directory; and unreadable directories are never walked but are recorded as
children of their walked parent. -/
structure Master (p : PyStr) (es : List FSEntry) : Prop where
  nodupPaths : ((walkDir p es).map (fun t => t.dirpath)).Nodup
  kidShape : ∀ t ∈ walkKids p es, ∃ nm sub,
    FSEntry.dir nm true sub ∈ es ∧ cleanName nm ∧ underName p nm t.dirpath
  norms : ∀ t ∈ walkKids p es, normPath t.dirpath ∧ t.dirpath ≠ ['/']
  names : ∀ t ∈ walkDir p es, t.dirnames.Nodup ∧ ∀ nm ∈ t.dirnames, cleanName nm
  parentEdge : ∀ t ∈ walkKids p es, ∃ t' ∈ walkDir p es,
    addTarget t.dirpath = some t'.dirpath ∧
    t.dirpath ∈ t'.dirnames.map (joinPath t'.dirpath)
  badUnder : ∀ c ∈ badKids p es, ∃ nm, cleanName nm ∧
    (∃ ok sub, FSEntry.dir nm ok sub ∈ es) ∧ underName p nm c
  badNotWalked : ∀ c ∈ badKids p es, ∀ t ∈ walkDir p es, t.dirpath ≠ c
  badEdge : ∀ c ∈ badKids p es, ∃ t' ∈ walkDir p es,
    addTarget c = some t'.dirpath ∧ c ∈ t'.dirnames.map (joinPath t'.dirpath)

theorem master_nil (p : PyStr) : Master p [] := by
  have hw : walkDir p [] = [⟨p, [], []⟩] := by
    rw [walkDir_eq, walkKids_nil]
    rfl
  refine ⟨?_, ?_, ?_, ?_, ?_, ?_, ?_, ?_⟩
  · rw [hw]; simp
  · rw [walkKids_nil]; intro t ht; exact absurd ht (List.not_mem_nil t)
  · rw [walkKids_nil]; intro t ht; exact absurd ht (List.not_mem_nil t)
  · rw [hw]
    intro t ht
    rcases List.mem_cons.mp ht with rfl | h'
    · simp
    · exact absurd h' (List.not_mem_nil t)
  · rw [walkKids_nil]; intro t ht; exact absurd ht (List.not_mem_nil t)
  · rw [badKids_nil]; intro c hc; exact absurd hc (List.not_mem_nil c)
  · rw [badKids_nil]; intro c hc; exact absurd hc (List.not_mem_nil c)
  · rw [badKids_nil]; intro c hc; exact absurd hc (List.not_mem_nil c)

theorem walkDir_map_path (p : PyStr) (es : List FSEntry) :
    (walkDir p es).map (fun t => t.dirpath)
      = p :: (walkKids p es).map (fun t => t.dirpath) := by
  rw [walkDir_eq]
  rfl

theorem mem_walkDir_elim (p : PyStr) (es : List FSEntry) (t : WalkTriple)
    (h : t ∈ walkDir p es) :
    t = ⟨p, es.filterMap entryDirname?, es.filterMap entryFile?⟩ ∨ t ∈ walkKids p es := by
  rw [walkDir_eq] at h
  exact List.mem_cons.mp h

theorem head_mem_walkDir (p : PyStr) (es : List FSEntry) :
    (⟨p, es.filterMap entryDirname?, es.filterMap entryFile?⟩ : WalkTriple) ∈ walkDir p es := by
  rw [walkDir_eq]
  exact List.mem_cons_self _ _

theorem kid_mem_walkDir (p : PyStr) (es : List FSEntry) (t : WalkTriple)
    (h : t ∈ walkKids p es) : t ∈ walkDir p es := by
  rw [walkDir_eq]
  exact List.mem_cons_of_mem _ h

theorem mem_filterMap_dirnames (es : List FSEntry) (nm : PyStr)
    (h : nm ∈ es.filterMap entryDirname?) : ∃ x ∈ es, entryName x = nm := by
  rcases List.mem_filterMap.mp h with ⟨x, hx, hsome⟩
  exact ⟨x, hx, entryDirname?_name x nm hsome⟩

theorem ne_of_underName (p nm x : PyStr) (hp : normPath p) (hn : cleanName nm)
    (h : underName p nm x) : x ≠ p := by
  have := underName_length p nm x hp hn h
  intro hc
  rw [hc] at this
  omega

/-- Every directory walked below `q = joinPath p nm` lies under the child
named `nm` of `p`. -/
theorem walkDir_under (p nm : PyStr) (sub : List FSEntry)
    (hp : normPath p) (hcn : cleanName nm) (Msub : Master (joinPath p nm) sub) :
    ∀ t ∈ walkDir (joinPath p nm) sub, underName p nm t.dirpath := by
  intro t ht
  rcases mem_walkDir_elim _ _ t ht with rfl | hkid
  · exact Or.inl rfl
  · rcases Msub.kidShape t hkid with ⟨nm₂, sub₂, -, hcn₂, hu₂⟩
    rcases underName_extend p nm nm₂ t.dirpath hp hcn hcn₂ hu₂ with ⟨tail, htail⟩
    exact Or.inr ⟨tail, htail⟩

/-- Every unreadable directory found below `q = joinPath p nm` lies under
the child named `nm` of `p`. -/
theorem badDirs_under (p nm : PyStr) (sub : List FSEntry)
    (hp : normPath p) (hcn : cleanName nm) (Msub : Master (joinPath p nm) sub) :
    ∀ c ∈ badDirs (joinPath p nm) sub, underName p nm c := by
  intro c hc
  rw [badDirs] at hc
  rcases Msub.badUnder c hc with ⟨nm₂, hcn₂, -, hu₂⟩
  rcases underName_extend p nm nm₂ c hp hcn hcn₂ hu₂ with ⟨tail, htail⟩
  exact Or.inr ⟨tail, htail⟩

/-- Adding a non-directory entry at the head of a listing does not change
which directories are walked or found unreadable, so the walk facts lift. -/
theorem master_cons_nondir (p : PyStr) (e : FSEntry) (rest : List FSEntry)
    (hp : normPath p) (hwf : wfFS (e :: rest)) (Mrest : Master p rest)
    (heq : walkKids p (e :: rest) = walkKids p rest)
    (heqb : badKids p (e :: rest) = badKids p rest) : Master p (e :: rest) := by
  obtain ⟨hce, -, hdist, hwfrest⟩ := wfFS_head e rest hwf
  have hheadnames : ((e :: rest).filterMap entryDirname?).Nodup ∧
      ∀ nm ∈ (e :: rest).filterMap entryDirname?, cleanName nm := by
    have hrestn := Mrest.names _ (head_mem_walkDir p rest)
    rcases he : entryDirname? e with - | nm
    · rw [List.filterMap_cons_none he]
      exact hrestn
    · rw [List.filterMap_cons_some he]
      constructor
      · rw [List.nodup_cons]
        refine ⟨?_, hrestn.1⟩
        intro hmem
        rcases mem_filterMap_dirnames rest nm hmem with ⟨x, hx, hxn⟩
        exact hdist x hx (hxn.trans (entryDirname?_name e nm he).symm)
      · intro nm' hnm'
        rcases List.mem_cons.mp hnm' with rfl | h'
        · exact (entryDirname?_name e nm' he) ▸ hce
        · exact hrestn.2 nm' h'
  refine ⟨?_, ?_, ?_, ?_, ?_, ?_, ?_, ?_⟩
  · rw [walkDir_map_path, heq, ← walkDir_map_path]
    exact Mrest.nodupPaths
  · rw [heq]
    intro t ht
    rcases Mrest.kidShape t ht with ⟨nm, sub, hmem, hcn, hu⟩
    exact ⟨nm, sub, List.mem_cons_of_mem e hmem, hcn, hu⟩
  · rw [heq]
    exact Mrest.norms
  · intro t ht
    rcases mem_walkDir_elim _ _ t ht with rfl | hkid
    · exact hheadnames
    · rw [heq] at hkid
      exact Mrest.names t (kid_mem_walkDir p rest t hkid)
  · rw [heq]
    intro t ht
    rcases Mrest.parentEdge t ht with ⟨t', ht', htarget, hchild⟩
    rcases mem_walkDir_elim _ _ t' ht' with rfl | hkid'
    · refine ⟨⟨p, (e :: rest).filterMap entryDirname?, (e :: rest).filterMap entryFile?⟩,
        head_mem_walkDir p (e :: rest), htarget, ?_⟩
      rcases List.mem_map.mp hchild with ⟨nm, hnm, hj⟩
      refine List.mem_map.mpr ⟨nm, ?_, hj⟩
      rcases he : entryDirname? e with - | nm₀
      · rw [List.filterMap_cons_none he]
        exact hnm
      · rw [List.filterMap_cons_some he]
        exact List.mem_cons_of_mem nm₀ hnm
    · exact ⟨t', kid_mem_walkDir p (e :: rest) t'
        (by rw [heq]; exact hkid'), htarget, hchild⟩
  · rw [heqb]
    intro c hc
    rcases Mrest.badUnder c hc with ⟨nm, hcn, ⟨ok, sub, hmem⟩, hu⟩
    exact ⟨nm, hcn, ⟨ok, sub, List.mem_cons_of_mem e hmem⟩, hu⟩
  · rw [heqb]
    intro c hc t ht
    rcases mem_walkDir_elim _ _ t ht with rfl | hkid
    · show p ≠ c
      exact Mrest.badNotWalked c hc _ (head_mem_walkDir p rest)
    · rw [heq] at hkid
      exact Mrest.badNotWalked c hc t (kid_mem_walkDir p rest t hkid)
  · rw [heqb]
    intro c hc
    rcases Mrest.badEdge c hc with ⟨t', ht', htarget, hchild⟩
    rcases mem_walkDir_elim _ _ t' ht' with rfl | hkid'
    · refine ⟨⟨p, (e :: rest).filterMap entryDirname?, (e :: rest).filterMap entryFile?⟩,
        head_mem_walkDir p (e :: rest), htarget, ?_⟩
      rcases List.mem_map.mp hchild with ⟨nm, hnm, hj⟩
      refine List.mem_map.mpr ⟨nm, ?_, hj⟩
      rcases he : entryDirname? e with - | nm₀
      · rw [List.filterMap_cons_none he]
        exact hnm
      · rw [List.filterMap_cons_some he]
        exact List.mem_cons_of_mem nm₀ hnm
    · exact ⟨t', kid_mem_walkDir p (e :: rest) t'
        (by rw [heq]; exact hkid'), htarget, hchild⟩

theorem master_cons_dir (p nm : PyStr) (ok : Bool) (sub rest : List FSEntry)
    (hp : normPath p) (hwf : wfFS (FSEntry.dir nm ok sub :: rest))
    (Mrest : Master p rest) (Msub : Master (joinPath p nm) sub) :
    Master p (FSEntry.dir nm ok sub :: rest) := by
  obtain ⟨hce, -, hdist, hwfrest⟩ := wfFS_head _ rest hwf
  have hcn : cleanName nm := hce
  have heq := walkKids_dir p nm ok sub rest
  have heqb := badKids_dir p nm ok sub rest
  have hfm : (FSEntry.dir nm ok sub :: rest).filterMap entryDirname?
      = nm :: rest.filterMap entryDirname? := List.filterMap_cons_some rfl
  have hblockU : ∀ t ∈ walkDir (joinPath p nm) sub, underName p nm t.dirpath :=
    walkDir_under p nm sub hp hcn Msub
  have hbadU : ∀ c ∈ badDirs (joinPath p nm) sub, underName p nm c :=
    badDirs_under p nm sub hp hcn Msub
  have hKrU : ∀ t ∈ walkKids p rest, ∃ nm₂, cleanName nm₂ ∧ nm₂ ≠ nm ∧
      underName p nm₂ t.dirpath := by
    intro t ht
    rcases Mrest.kidShape t ht with ⟨nm₂, sub₂, hmem₂, hcn₂, hu₂⟩
    exact ⟨nm₂, hcn₂, hdist _ hmem₂, hu₂⟩
  have hbadRU : ∀ c ∈ badKids p rest, ∃ nm₂, cleanName nm₂ ∧ nm₂ ≠ nm ∧
      underName p nm₂ c := by
    intro c hc
    rcases Mrest.badUnder c hc with ⟨nm₂, hcn₂, ⟨ok₂, sub₂, hmem₂⟩, hu₂⟩
    exact ⟨nm₂, hcn₂, hdist _ hmem₂, hu₂⟩
  have hdisj : ∀ x y : PyStr, underName p nm x →
      (∃ nm₂, cleanName nm₂ ∧ nm₂ ≠ nm ∧ underName p nm₂ y) → x ≠ y := by
    rintro x y hux ⟨nm₂, hcn₂, hne₂, huy⟩ rfl
    exact hne₂ (underName_name_eq p nm₂ nm x hp hcn₂ hcn huy hux)
  have hblockElim : ∀ t ∈ (if ok then walkDir (joinPath p nm) sub else []),
      ok = true ∧ t ∈ walkDir (joinPath p nm) sub := by
    cases ok <;> simp
  have hbadblockElim : ∀ c ∈ (if ok then badDirs (joinPath p nm) sub else [joinPath p nm]),
      (ok = true ∧ c ∈ badDirs (joinPath p nm) sub) ∨ (ok = false ∧ c = joinPath p nm) := by
    cases ok <;> simp
  have hsubW : ok = true → ∀ t ∈ walkDir (joinPath p nm) sub,
      t ∈ walkDir p (FSEntry.dir nm ok sub :: rest) := by
    intro hok t ht
    apply kid_mem_walkDir
    rw [heq, hok, if_pos rfl]
    exact List.mem_append_left _ ht
  have hKrW : ∀ t ∈ walkKids p rest, t ∈ walkDir p (FSEntry.dir nm ok sub :: rest) := by
    intro t ht
    apply kid_mem_walkDir
    rw [heq]
    exact List.mem_append_right _ ht
  have hheadU : ∀ x : PyStr, underName p nm x → joinPath p nm ∈
      (⟨p, (FSEntry.dir nm ok sub :: rest).filterMap entryDirname?,
        (FSEntry.dir nm ok sub :: rest).filterMap entryFile?⟩ : WalkTriple).dirnames.map
        (joinPath p) := by
    intro x _
    show joinPath p nm ∈ ((FSEntry.dir nm ok sub :: rest).filterMap entryDirname?).map (joinPath p)
    rw [hfm]
    exact List.mem_map.mpr ⟨nm, List.mem_cons_self _ _, rfl⟩
  refine ⟨?_, ?_, ?_, ?_, ?_, ?_, ?_, ?_⟩
  · -- nodupPaths
    rw [walkDir_map_path, heq, List.map_append, List.nodup_cons]
    constructor
    · intro hmem
      rcases List.mem_append.mp hmem with hb | hk
      · rcases List.mem_map.mp hb with ⟨t, ht, hpath⟩
        rcases hblockElim t ht with ⟨-, ht'⟩
        exact ne_of_underName p nm p hp hcn (hpath ▸ hblockU t ht') rfl
      · rcases List.mem_map.mp hk with ⟨t, ht, hpath⟩
        rcases hKrU t ht with ⟨nm₂, hcn₂, -, hu₂⟩
        exact ne_of_underName p nm₂ p hp hcn₂ (hpath ▸ hu₂) rfl
    · rw [List.nodup_append]
      refine ⟨?_, ?_, ?_⟩
      · cases hok : ok
        · simp
        · rw [if_pos rfl]
          exact Msub.nodupPaths
      · have := Mrest.nodupPaths
        rw [walkDir_map_path, List.nodup_cons] at this
        exact this.2
      · intro x hx hy
        rcases List.mem_map.mp hx with ⟨t, ht, hpath⟩
        rcases hblockElim t ht with ⟨-, ht'⟩
        rcases List.mem_map.mp hy with ⟨t₂, ht₂, hpath₂⟩
        exact hdisj x x (hpath ▸ hblockU t ht')
          (by rcases hKrU t₂ ht₂ with ⟨nm₂, a, b, c⟩; exact ⟨nm₂, a, b, hpath₂ ▸ c⟩) rfl
  · -- kidShape
    rw [heq]
    intro t ht
    rcases List.mem_append.mp ht with hb | hk
    · rcases hblockElim t hb with ⟨hok, ht'⟩
      subst hok
      exact ⟨nm, sub, List.mem_cons_self _ _, hcn, hblockU t ht'⟩
    · rcases Mrest.kidShape t hk with ⟨nm₂, sub₂, hmem₂, hcn₂, hu₂⟩
      exact ⟨nm₂, sub₂, List.mem_cons_of_mem _ hmem₂, hcn₂, hu₂⟩
  · -- norms
    rw [heq]
    intro t ht
    rcases List.mem_append.mp ht with hb | hk
    · rcases hblockElim t hb with ⟨-, ht'⟩
      rcases mem_walkDir_elim _ _ t ht' with rfl | hkid
      · exact normPath_joinPath p nm hp hcn
      · exact Msub.norms t hkid
    · exact Mrest.norms t hk
  · -- names
    intro t ht
    rcases mem_walkDir_elim _ _ t ht with rfl | hkid
    · constructor
      · show ((FSEntry.dir nm ok sub :: rest).filterMap entryDirname?).Nodup
        rw [hfm, List.nodup_cons]
        refine ⟨?_, (Mrest.names _ (head_mem_walkDir p rest)).1⟩
        intro hmem
        rcases mem_filterMap_dirnames rest nm hmem with ⟨x, hx, hxn⟩
        exact hdist x hx hxn
      · intro nm' hnm'
        have : nm' ∈ nm :: rest.filterMap entryDirname? := by
          rw [← hfm]
          exact hnm'
        rcases List.mem_cons.mp this with rfl | h'
        · exact hcn
        · exact (Mrest.names _ (head_mem_walkDir p rest)).2 nm' h'
    · rw [heq] at hkid
      rcases List.mem_append.mp hkid with hb | hk
      · rcases hblockElim t hb with ⟨-, ht'⟩
        exact Msub.names t ht'
      · exact Mrest.names t (kid_mem_walkDir p rest t hk)
  · -- parentEdge
    rw [heq]
    intro t ht
    rcases List.mem_append.mp ht with hb | hk
    · rcases hblockElim t hb with ⟨hok, ht'⟩
      rcases mem_walkDir_elim _ _ t ht' with rfl | hkid
      · refine ⟨_, head_mem_walkDir p (FSEntry.dir nm ok sub :: rest), ?_, ?_⟩
        · exact addTarget_joinPath p nm hp hcn
        · exact hheadU _ (Or.inl rfl)
      · rcases Msub.parentEdge t hkid with ⟨t', ht', htarget, hchild⟩
        exact ⟨t', hsubW hok t' ht', htarget, hchild⟩
    · rcases Mrest.parentEdge t hk with ⟨t', ht', htarget, hchild⟩
      rcases mem_walkDir_elim _ _ t' ht' with rfl | hkid'
      · refine ⟨_, head_mem_walkDir p (FSEntry.dir nm ok sub :: rest), htarget, ?_⟩
        show t.dirpath ∈ ((FSEntry.dir nm ok sub :: rest).filterMap entryDirname?).map (joinPath p)
        rw [hfm]
        rcases List.mem_map.mp hchild with ⟨nm₂, hnm₂, hj₂⟩
        exact List.mem_map.mpr ⟨nm₂, List.mem_cons_of_mem nm hnm₂, hj₂⟩
      · exact ⟨t', hKrW t' hkid', htarget, hchild⟩
  · -- badUnder
    rw [heqb]
    intro c hc
    rcases List.mem_append.mp hc with hb | hk
    · rcases hbadblockElim c hb with ⟨hok, hc'⟩ | ⟨hok, rfl⟩
      · exact ⟨nm, hcn, ⟨ok, sub, List.mem_cons_self _ _⟩, hbadU c hc'⟩
      · exact ⟨nm, hcn, ⟨ok, sub, List.mem_cons_self _ _⟩, Or.inl rfl⟩
    · rcases Mrest.badUnder c hk with ⟨nm₂, hcn₂, ⟨ok₂, sub₂, hmem₂⟩, hu₂⟩
      exact ⟨nm₂, hcn₂, ⟨ok₂, sub₂, List.mem_cons_of_mem _ hmem₂⟩, hu₂⟩
  · -- badNotWalked
    rw [heqb]
    intro c hc t ht
    have hcU : underName p nm c ∨ ∃ nm₂, cleanName nm₂ ∧ nm₂ ≠ nm ∧ underName p nm₂ c := by
      rcases List.mem_append.mp hc with hb | hk
      · rcases hbadblockElim c hb with ⟨-, hc'⟩ | ⟨-, rfl⟩
        · exact Or.inl (hbadU c hc')
        · exact Or.inl (Or.inl rfl)
      · exact Or.inr (hbadRU c hk)
    rcases mem_walkDir_elim _ _ t ht with rfl | hkid
    · show p ≠ c
      rcases hcU with hu | ⟨nm₂, hcn₂, -, hu⟩
      · exact fun hpc => ne_of_underName p nm c hp hcn hu hpc.symm
      · exact fun hpc => ne_of_underName p nm₂ c hp hcn₂ hu hpc.symm
    · rw [heq] at hkid
      rcases List.mem_append.mp hkid with hb | hk
      · rcases hblockElim t hb with ⟨hok, ht'⟩
        rcases List.mem_append.mp hc with hcb | hck
        · rcases hbadblockElim c hcb with ⟨-, hc'⟩ | ⟨hok', rfl⟩
          · rw [badDirs_eq] at hc'
            exact Msub.badNotWalked c hc' t ht'
          · rw [hok] at hok'
            cases hok'
        · rcases hbadRU c hck with ⟨nm₂, hcn₂, hne₂, hu₂⟩
          exact hdisj t.dirpath c (hblockU t ht') ⟨nm₂, hcn₂, hne₂, hu₂⟩
      · rcases hcU with hu | hex
        · intro hctc
          rcases hKrU t hk with ⟨nm₂, hcn₂, hne₂, hu₂⟩
          exact hdisj c t.dirpath hu ⟨nm₂, hcn₂, hne₂, hu₂⟩ hctc.symm
        · rcases List.mem_append.mp hc with hcb | hck
          · rcases hbadblockElim c hcb with ⟨-, hc'⟩ | ⟨-, rfl⟩
            · intro hctc
              exact hdisj c t.dirpath (hbadU c hc')
                (hKrU t hk) hctc.symm
            · intro hctc
              exact hdisj (joinPath p nm) t.dirpath (Or.inl rfl) (hKrU t hk) hctc.symm
          · exact Mrest.badNotWalked c hck t (kid_mem_walkDir p rest t hk)
  · -- badEdge
    rw [heqb]
    intro c hc
    rcases List.mem_append.mp hc with hb | hk
    · rcases hbadblockElim c hb with ⟨hok, hc'⟩ | ⟨hok, rfl⟩
      · rw [badDirs_eq] at hc'
        rcases Msub.badEdge c hc' with ⟨t', ht', htarget, hchild⟩
        exact ⟨t', hsubW hok t' ht', htarget, hchild⟩
      · refine ⟨_, head_mem_walkDir p (FSEntry.dir nm ok sub :: rest), ?_, ?_⟩
        · exact addTarget_joinPath p nm hp hcn
        · exact hheadU _ (Or.inl rfl)
    · rcases Mrest.badEdge c hk with ⟨t', ht', htarget, hchild⟩
      rcases mem_walkDir_elim _ _ t' ht' with rfl | hkid'
      · refine ⟨_, head_mem_walkDir p (FSEntry.dir nm ok sub :: rest), htarget, ?_⟩
        show c ∈ ((FSEntry.dir nm ok sub :: rest).filterMap entryDirname?).map (joinPath p)
        rw [hfm]
        rcases List.mem_map.mp hchild with ⟨nm₂, hnm₂, hj₂⟩
        exact List.mem_map.mpr ⟨nm₂, List.mem_cons_of_mem nm hnm₂, hj₂⟩
      · exact ⟨t', hKrW t' hkid', htarget, hchild⟩

theorem walk_master_aux (N : Nat) : ∀ (es : List FSEntry), sizeOf es ≤ N →
    ∀ p : PyStr, wfFS es → normPath p → Master p es := by
  induction N with
  | zero =>
    intro es h
    exact absurd h (by cases es <;> simp)
  | succ N ih =>
    intro es hsize p hwf hp
    rcases es with - | ⟨e, rest⟩
    · exact master_nil p
    · have hrest : sizeOf rest ≤ N := by
        have h1 : sizeOf (e :: rest) = 1 + sizeOf e + sizeOf rest := by simp
        have h2 : 0 ≤ sizeOf e := Nat.zero_le _
        omega
      obtain ⟨hce, hwe, -, hwfrest⟩ := wfFS_head e rest hwf
      have Mrest := ih rest hrest p hwfrest hp
      rcases e with ⟨nm, sz⟩ | ⟨nm, ok, sub⟩ | nm | ⟨nm, sz⟩
      · exact master_cons_nondir p _ rest hp hwf Mrest
          (walkKids_file p nm sz rest) (badKids_file p nm sz rest)
      · have hcn : cleanName nm := hce
        have hsub : sizeOf sub ≤ N := by
          have h1 : sizeOf (FSEntry.dir nm ok sub :: rest)
              = 1 + (1 + sizeOf nm + sizeOf ok + sizeOf sub) + sizeOf rest := by
            simp
          omega
        have hwfsub : wfFS sub := by
          rw [wfEntry] at hwe
          exact hwe
        have Msub := ih sub hsub (joinPath p nm)
          hwfsub (normPath_joinPath p nm hp hcn).1
        exact master_cons_dir p nm ok sub rest hp hwf Mrest Msub
      · exact master_cons_nondir p _ rest hp hwf Mrest
          (walkKids_symlinkDir p nm rest) (badKids_symlinkDir p nm rest)
      · exact master_cons_nondir p _ rest hp hwf Mrest
          (walkKids_symlinkFile p nm sz rest) (badKids_symlinkFile p nm sz rest)

/-- The walk facts hold for every well-formed tree and normalized root. -/
theorem walk_master (p : PyStr) (es : List FSEntry) (hwf : wfFS es)
    (hp : normPath p) : Master p es :=
  walk_master_aux (sizeOf es) es le_rfl p hwf hp

/-! ### Assembling the full pipeline of `walk_and_collect` -/

theorem walked_length (root : PyStr) (es : List FSEntry) (hwf : wfFS es)
    (hp : normPath root) :
    ∀ t ∈ walkDir root es, t.dirpath = root ∨ root.length < t.dirpath.length := by
  intro t ht
  rcases mem_walkDir_elim _ _ t ht with rfl | hkid
  · exact Or.inl rfl
  · rcases (walk_master root es hwf hp).kidShape t hkid with ⟨nm, sub, -, hcn, hu⟩
    exact Or.inr (underName_length root nm t.dirpath hp hcn hu)

theorem triple_unique (root : PyStr) (es : List FSEntry) (hwf : wfFS es)
    (hp : normPath root) (t t' : WalkTriple) (ht : t ∈ walkDir root es)
    (ht' : t' ∈ walkDir root es) (hpath : t.dirpath = t'.dirpath) : t = t' :=
  List.inj_on_of_nodup_map (walk_master root es hwf hp).nodupPaths ht ht' hpath

theorem allDirs_walked (root : PyStr) (es : List FSEntry) (d : PyStr)
    (hd : d ∈ allDirsOf (ownMap (walkDir root es)) (childrenMap (walkDir root es))) :
    ∃ t ∈ walkDir root es, t.dirpath = d := by
  unfold allDirsOf at hd
  rcases List.mem_append.mp (List.mem_dedup.mp hd) with h | h
  · exact mem_dkeys_ownMap _ d h
  · exact mem_dkeys_childrenMap _ d h

/-- If the derived parent of a walked path is itself a walked path, the
walked path is a non-root triple and its parent is its walk parent. -/
theorem target_of_walked (root : PyStr) (es : List FSEntry) (hwf : wfFS es)
    (hp : normPath root) (t : WalkTriple) (ht : t ∈ walkDir root es)
    (x : PyStr) (htarget : addTarget t.dirpath = some x)
    (tx : WalkTriple) (htx : tx ∈ walkDir root es) (hxpath : tx.dirpath = x) :
    ∃ t' ∈ walkDir root es, t'.dirpath = x ∧
      t.dirpath ∈ t'.dirnames.map (joinPath t'.dirpath) := by
  have M := walk_master root es hwf hp
  rcases mem_walkDir_elim _ _ t ht with heq | hkid
  · -- the root triple's parent is strictly shorter than the root, but every
    -- walked path is at least as long as the root
    have hlen := addTarget_length t.dirpath x htarget
    rcases walked_length root es hwf hp tx htx with h | h
    · rw [heq] at hlen
      simp only at hlen
      rw [hxpath] at h
      subst h
      omega
    · rw [heq] at hlen
      simp only at hlen
      rw [hxpath] at h
      omega
  · rcases M.parentEdge t hkid with ⟨t', ht', htarget', hchild⟩
    rw [htarget] at htarget'
    injection htarget' with hx
    exact ⟨t', ht', hx.symm, hchild⟩

theorem norm_walked (root : PyStr) (es : List FSEntry) (hwf : wfFS es)
    (hp : normPath root) : ∀ t ∈ walkDir root es, normPath t.dirpath := by
  intro t ht
  rcases mem_walkDir_elim _ _ t ht with rfl | hkid
  · exact hp
  · exact ((walk_master root es hwf hp).norms t hkid).1

/-- The processing order of the aggregation loop is safe: whenever the loop
would add `y`'s total into an `x` that is processed earlier, `x`'s own
addition is refused by the guard (this only happens for the filesystem
root `/`, whose stripped dirname is empty). -/
theorem walk_ord (root : PyStr) (es : List FSEntry) (hwf : wfFS es) (hp : normPath root) :
    (sortBySepCount (allDirsOf (ownMap (walkDir root es))
      (childrenMap (walkDir root es)))).Pairwise
      (fun x y => addTarget y = some x → addTarget x = none) := by
  have M := walk_master root es hwf hp
  set A := allDirsOf (ownMap (walkDir root es)) (childrenMap (walkDir root es)) with hA
  have hsorted : (sortBySepCount A).Pairwise
      (fun a b => countSep b ≤ countSep a) := by
    haveI : IsTotal PyStr (fun a b => countSep b ≤ countSep a) :=
      ⟨fun a b => le_total (countSep b) (countSep a)⟩
    haveI : IsTrans PyStr (fun a b => countSep b ≤ countSep a) :=
      ⟨fun a b c h1 h2 => le_trans h2 h1⟩
    exact List.sorted_insertionSort _ A
  have hmemL : ∀ x ∈ sortBySepCount A, x ∈ A := by
    intro x hx
    exact (List.perm_insertionSort (fun a b => countSep b ≤ countSep a) A).mem_iff.mp hx
  refine hsorted.imp_of_mem ?_
  intro x y hx hy hcount htarget
  have hxw := allDirs_walked root es x (hmemL x hx)
  have hyw := allDirs_walked root es y (hmemL y hy)
  rcases hyw with ⟨ty, hty, htypath⟩
  rcases hxw with ⟨tx, htx, htxpath⟩
  rw [← htypath] at htarget
  rcases target_of_walked root es hwf hp ty hty x htarget tx htx htxpath
    with ⟨t', ht', ht'path, hchild⟩
  rcases List.mem_map.mp hchild with ⟨nm₂, hnm₂, hjoin⟩
  have hcn₂ : cleanName nm₂ := (M.names t' ht').2 nm₂ hnm₂
  have hnorm' : normPath t'.dirpath := norm_walked root es hwf hp t' ht'
  by_cases hslash : t'.dirpath = ['/']
  · rw [ht'path] at hslash
    rw [hslash]
    exact addTarget_slash
  · have hc := countSep_joinPath t'.dirpath nm₂ hnorm' hcn₂
    rw [if_neg hslash] at hc
    rw [hjoin, htypath] at hc
    rw [ht'path] at hc
    omega

theorem addTarget_some_eq (c z : PyStr) (h : addTarget c = some z) :
    z = dirname (rstripSeps c) := by
  unfold addTarget at h
  split at h
  · injection h with h'
    exact h'.symm
  · exact absurd h (by simp)

/-- A walked directory's derived parent is either the root's derived parent
(when it is the root) or its walk parent, which records it as a child. -/
theorem target_dichotomy (root : PyStr) (es : List FSEntry) (hwf : wfFS es)
    (hp : normPath root) (t : WalkTriple) (ht : t ∈ walkDir root es)
    (z : PyStr) (htarget : addTarget t.dirpath = some z) :
    (t.dirpath = root ∧ z = dirname (rstripSeps root)) ∨
    ∃ t' ∈ walkDir root es, z = t'.dirpath ∧
      t.dirpath ∈ t'.dirnames.map (joinPath t'.dirpath) := by
  rcases mem_walkDir_elim _ _ t ht with heq | hkid
  · left
    have hpath : t.dirpath = root := by rw [heq]
    rw [hpath] at htarget
    exact ⟨hpath, addTarget_some_eq root z htarget⟩
  · right
    rcases (walk_master root es hwf hp).parentEdge t hkid with ⟨t', ht', htarget', hchild⟩
    rw [htarget] at htarget'
    injection htarget' with hx
    exact ⟨t', ht', hx, hchild⟩

theorem mem_allDirs_iff (root : PyStr) (es : List FSEntry) (k : PyStr) :
    k ∈ allDirsOf (ownMap (walkDir root es)) (childrenMap (walkDir root es)) ↔
      k ∈ dkeys (ownMap (walkDir root es)) ∨ k ∈ dkeys (childrenMap (walkDir root es)) := by
  unfold allDirsOf
  rw [List.mem_dedup, List.mem_append]

theorem mem_sortBySepCount (l : List PyStr) (k : PyStr) :
    k ∈ sortBySepCount l ↔ k ∈ l :=
  (List.perm_insertionSort _ l).mem_iff

theorem nodup_sortBySepCount_allDirs (root : PyStr) (es : List FSEntry) :
    (sortBySepCount (allDirsOf (ownMap (walkDir root es))
      (childrenMap (walkDir root es)))).Nodup := by
  unfold sortBySepCount
  rw [(List.perm_insertionSort _ _).nodup_iff]
  exact List.nodup_dedup _

theorem walk_and_collect_true (root : PyStr) (es : List FSEntry) :
    walk_and_collect root true es =
      ((allDirsOf (ownMap (walkDir root es)) (childrenMap (walkDir root es))).foldl
        setdefaultZero
        ((sortBySepCount (allDirsOf (ownMap (walkDir root es))
          (childrenMap (walkDir root es)))).foldl procOne (ownMap (walkDir root es))),
      childrenMap (walkDir root es), (walkDir root es).length) := rfl

/-- After the whole pipeline, every path's stored total is its aggregated
total `S`. -/
theorem total_getD_eq_S (root : PyStr) (es : List FSEntry) (hwf : wfFS es)
    (hp : normPath root) (d : PyStr) :
    dgetD (walk_and_collect root true es).1 d 0
      = S (sortBySepCount (allDirsOf (ownMap (walkDir root es))
          (childrenMap (walkDir root es)))) (ownMap (walkDir root es)) d := by
  rw [walk_and_collect_true]
  show dgetD (List.foldl setdefaultZero _ _) d 0 = _
  rw [dgetD_setdefault_fold]
  exact foldl_procOne_eq_S _ _ (walk_ord root es hwf hp) d

/-- A path that is neither walked nor the root's derived parent has
aggregated total `0`. -/
theorem S_unwalked (root : PyStr) (es : List FSEntry) (hwf : wfFS es)
    (hp : normPath root) (d : PyStr)
    (hnw : ∀ t ∈ walkDir root es, t.dirpath ≠ d)
    (hnp : d ≠ dirname (rstripSeps root)) :
    S (sortBySepCount (allDirsOf (ownMap (walkDir root es))
      (childrenMap (walkDir root es)))) (ownMap (walkDir root es)) d = 0 := by
  rw [S_eq]
  have h1 : dgetD (ownMap (walkDir root es)) d 0 = 0 := by
    have : dictGet (ownMap (walkDir root es)) d = none :=
      dictGet_ownMap_not_mem _ d hnw
    simp [dgetD, this]
  have h2 : (sortBySepCount (allDirsOf (ownMap (walkDir root es))
      (childrenMap (walkDir root es)))).filter (fun c => addTarget c = some d) = [] := by
    rw [List.filter_eq_nil_iff]
    intro x hx hdec
    have htarget : addTarget x = some d := of_decide_eq_true hdec
    rcases allDirs_walked root es x ((mem_sortBySepCount _ x).mp hx) with ⟨tx, htx, hxpath⟩
    rw [← hxpath] at htarget
    rcases target_dichotomy root es hwf hp tx htx d htarget with ⟨-, hpar⟩ | ⟨t', ht', hz, -⟩
    · exact hnp hpar
    · exact hnw t' ht' hz.symm
  rw [h1, h2]
  rfl

/-- If the root's derived parent exists it is shorter than every walked
path, hence never walked itself. -/
theorem root_parent_not_walked (root : PyStr) (es : List FSEntry) (hwf : wfFS es)
    (hp : normPath root) (z : PyStr) (hz : addTarget root = some z) :
    ∀ t' ∈ walkDir root es, t'.dirpath ≠ z := by
  intro t' ht' heq
  have h1 := addTarget_length root z hz
  rcases walked_length root es hwf hp t' ht' with h | h
  · rw [heq] at h
    rw [h] at h1
    omega
  · rw [heq] at h
    omega

/-- A member of the processing order whose derived parent is a walked path
is itself a walked directory recorded among its walk parent's children. -/
theorem filter_char (root : PyStr) (es : List FSEntry) (hwf : wfFS es)
    (hp : normPath root) (x : PyStr)
    (hx : x ∈ sortBySepCount (allDirsOf (ownMap (walkDir root es))
      (childrenMap (walkDir root es))))
    (z : PyStr) (tz : WalkTriple) (htz : tz ∈ walkDir root es) (hzpath : tz.dirpath = z)
    (htarget : addTarget x = some z) :
    ∃ t' ∈ walkDir root es, z = t'.dirpath ∧
      x ∈ t'.dirnames.map (joinPath t'.dirpath) := by
  obtain ⟨tx, htx, hxpath⟩ := allDirs_walked root es x ((mem_sortBySepCount _ x).mp hx)
  rw [← hxpath] at htarget
  rcases target_dichotomy root es hwf hp tx htx z htarget with ⟨hxroot, -⟩ | h
  · exfalso
    rw [hxroot] at htarget
    exact root_parent_not_walked root es hwf hp z htarget tz htz hzpath
  · rcases h with ⟨t', ht', hz, hchild⟩
    rw [hxpath] at hchild
    exact ⟨t', ht', hz, hchild⟩

/-- At a walked directory, the aggregated total satisfies the invariant:
own size plus the aggregated totals of the recorded children. -/
theorem S_walked (root : PyStr) (es : List FSEntry) (hwf : wfFS es)
    (hp : normPath root) (t : WalkTriple) (ht : t ∈ walkDir root es) :
    S (sortBySepCount (allDirsOf (ownMap (walkDir root es))
        (childrenMap (walkDir root es)))) (ownMap (walkDir root es)) t.dirpath
      = dgetD (ownMap (walkDir root es)) t.dirpath 0 +
        ((dgetD (childrenMap (walkDir root es)) t.dirpath []).map
          (S (sortBySepCount (allDirsOf (ownMap (walkDir root es))
            (childrenMap (walkDir root es)))) (ownMap (walkDir root es)))).sum := by
  have M := walk_master root es hwf hp
  have hnd := M.nodupPaths
  have hdnorm : normPath t.dirpath := norm_walked root es hwf hp t ht
  have hnames := M.names t ht
  by_cases hdn : t.dirnames = []
  · have hch : dgetD (childrenMap (walkDir root es)) t.dirpath [] = [] := by
      have h0 := dictGet_childrenMap (walkDir root es) t ht hnd
      rw [if_pos hdn] at h0
      simp [dgetD, h0]
    have hfil : (sortBySepCount (allDirsOf (ownMap (walkDir root es))
        (childrenMap (walkDir root es)))).filter
        (fun c => addTarget c = some t.dirpath) = [] := by
      rw [List.filter_eq_nil_iff]
      intro x hx hdec
      obtain ⟨t', ht', hz, hchild⟩ := filter_char root es hwf hp x hx t.dirpath t ht rfl
        (of_decide_eq_true hdec)
      have ht'eq : t' = t := triple_unique root es hwf hp t' t ht' ht hz.symm
      rw [ht'eq, hdn] at hchild
      simp at hchild
    rw [S_eq, hch, hfil]
  · have hchval : dgetD (childrenMap (walkDir root es)) t.dirpath []
        = t.dirnames.map (joinPath t.dirpath) := by
      have h0 := dictGet_childrenMap (walkDir root es) t ht hnd
      rw [if_neg hdn] at h0
      simp [dgetD, h0]
    have hS0 : ∀ c ∈ t.dirnames.map (joinPath t.dirpath),
        c ∉ sortBySepCount (allDirsOf (ownMap (walkDir root es))
          (childrenMap (walkDir root es))) →
        S (sortBySepCount (allDirsOf (ownMap (walkDir root es))
          (childrenMap (walkDir root es)))) (ownMap (walkDir root es)) c = 0 := by
      intro c hc hcL
      rcases List.mem_map.mp hc with ⟨nm₂, hnm₂, hj⟩
      have hcn₂ : cleanName nm₂ := hnames.2 nm₂ hnm₂
      have hclen : t.dirpath.length < c.length := by
        rw [← hj]
        exact length_joinPath _ _ hdnorm hcn₂
      rw [S_eq]
      have hown0 : dgetD (ownMap (walkDir root es)) c 0 = 0 := by
        by_cases hmem : c ∈ dkeys (ownMap (walkDir root es))
        · exact absurd ((mem_sortBySepCount _ c).mpr
            ((mem_allDirs_iff root es c).mpr (Or.inl hmem))) hcL
        · have h0 : dictGet (ownMap (walkDir root es)) c = none :=
            (dictGet_eq_none_iff _ c).mpr hmem
          simp [dgetD, h0]
      have hfil0 : (sortBySepCount (allDirsOf (ownMap (walkDir root es))
          (childrenMap (walkDir root es)))).filter (fun x => addTarget x = some c) = [] := by
        rw [List.filter_eq_nil_iff]
        intro x hx hdec
        have htargetx : addTarget x = some c := of_decide_eq_true hdec
        obtain ⟨tx, htx, hxpath⟩ :=
          allDirs_walked root es x ((mem_sortBySepCount _ x).mp hx)
        rw [← hxpath] at htargetx
        rcases target_dichotomy root es hwf hp tx htx c htargetx
          with ⟨hxroot, -⟩ | ⟨t', ht', hz, hchild⟩
        · rw [hxroot] at htargetx
          have h1 := addTarget_length root c htargetx
          have h2 : root.length ≤ t.dirpath.length := by
            rcases walked_length root es hwf hp t ht with he | hlt
            · rw [he]
            · omega
          omega
        · have hchildne : t'.dirnames ≠ [] := by
            intro h0
            rw [h0] at hchild
            simp at hchild
          have h0 := dictGet_childrenMap (walkDir root es) t' ht' hnd
          rw [if_neg hchildne] at h0
          have hkeys : t'.dirpath ∈ dkeys (childrenMap (walkDir root es)) := by
            rw [← dictGet_isSome_iff, h0]
            rfl
          rw [← hz] at hkeys
          exact hcL ((mem_sortBySepCount _ c).mpr
            ((mem_allDirs_iff root es c).mpr (Or.inr hkeys)))
      rw [hown0, hfil0]
      rfl
    have hperm : List.Perm
        ((sortBySepCount (allDirsOf (ownMap (walkDir root es))
          (childrenMap (walkDir root es)))).filter (fun c => addTarget c = some t.dirpath))
        ((t.dirnames.map (joinPath t.dirpath)).filter
          (fun c => decide (c ∈ sortBySepCount (allDirsOf (ownMap (walkDir root es))
            (childrenMap (walkDir root es)))))) := by
      apply List.perm_of_nodup_nodup_toFinset_eq
      · exact (nodup_sortBySepCount_allDirs root es).filter _
      · apply List.Nodup.filter
        apply List.Nodup.map_on ?_ hnames.1
        intro x hxmem y hymem hxy
        exact (joinPath_inj t.dirpath t.dirpath x y hdnorm hdnorm
          (hnames.2 x hxmem) (hnames.2 y hymem) hxy).2
      · apply Finset.ext
        intro z
        simp only [List.mem_toFinset, List.mem_filter, decide_eq_true_eq]
        constructor
        · rintro ⟨hzL, hdec⟩
          obtain ⟨t', ht', hz, hchild⟩ := filter_char root es hwf hp z hzL t.dirpath t ht rfl hdec
          have ht'eq : t' = t := triple_unique root es hwf hp t' t ht' ht hz.symm
          rw [ht'eq] at hchild
          exact ⟨hchild, hzL⟩
        · rintro ⟨hzch, hzL⟩
          refine ⟨hzL, ?_⟩
          rcases List.mem_map.mp hzch with ⟨nm₂, hnm₂, hj₂⟩
          have : addTarget z = some t.dirpath := by
            rw [← hj₂]
            exact addTarget_joinPath t.dirpath nm₂ hdnorm (hnames.2 nm₂ hnm₂)
          simp [this]
    rw [S_eq, hchval]
    have hsplit := List.filter_append_perm
      (fun c => decide (c ∈ sortBySepCount (allDirsOf (ownMap (walkDir root es))
        (childrenMap (walkDir root es))))) (t.dirnames.map (joinPath t.dirpath))
    have heq1 : ((t.dirnames.map (joinPath t.dirpath)).map
        (S (sortBySepCount (allDirsOf (ownMap (walkDir root es))
          (childrenMap (walkDir root es)))) (ownMap (walkDir root es)))).sum
        = (((t.dirnames.map (joinPath t.dirpath)).filter
            (fun c => decide (c ∈ sortBySepCount (allDirsOf (ownMap (walkDir root es))
              (childrenMap (walkDir root es)))))).map
          (S (sortBySepCount (allDirsOf (ownMap (walkDir root es))
            (childrenMap (walkDir root es)))) (ownMap (walkDir root es)))).sum := by
      rw [← (hsplit.map (S (sortBySepCount (allDirsOf (ownMap (walkDir root es))
        (childrenMap (walkDir root es)))) (ownMap (walkDir root es)))).sum_eq]
      rw [List.map_append, List.sum_append]
      have hzero : (((t.dirnames.map (joinPath t.dirpath)).filter
          (fun c => !decide (c ∈ sortBySepCount (allDirsOf (ownMap (walkDir root es))
            (childrenMap (walkDir root es)))))).map
          (S (sortBySepCount (allDirsOf (ownMap (walkDir root es))
            (childrenMap (walkDir root es)))) (ownMap (walkDir root es)))).sum = 0 := by
        apply List.sum_eq_zero
        intro v hv
        rcases List.mem_map.mp hv with ⟨c, hcmem, hcv⟩
        rcases List.mem_filter.mp hcmem with ⟨hcch, hcnot⟩
        have : c ∉ sortBySepCount (allDirsOf (ownMap (walkDir root es))
            (childrenMap (walkDir root es))) := by
          intro hcontra
          simp [hcontra] at hcnot
        rw [← hcv]
        exact hS0 c hcch this
      omega
    rw [heq1, (hperm.map _).sum_eq]


/-! ### Claim C1 -/

/-- The walk of the one-file counterexample filesystem, evaluated. -/
theorem walkDir_cex1 :
    walkDir ['/', 'r'] [FSEntry.file ['f'] (some 5)]
      = [⟨['/', 'r'], [], [(['f'], some 5)]⟩] := by
  rw [walkDir_eq, walkKids_file, walkKids_nil]
  rfl

/-- C1 (as stated) is false: the aggregation loop adds the root's total
into the root's *derived parent* — a path outside the scanned subtree that
thereby becomes a key of `total_size` with no `own_size` and no children —
so the invariant fails at that key.  Concretely, scanning root `/r`
containing one 5-byte file `f` yields `total_size = {/r: 5, /: 5}`, but
`ownSize[/] + Σ totalSize[c] for c in children[/]` is `0 ≠ 5`. -/
theorem C1_counterexample :
    ¬ (dgetD (walk_and_collect ['/', 'r'] true [FSEntry.file ['f'] (some 5)]).1 ['/'] 0
      = dgetD (ownMap (osWalk ['/', 'r'] true [FSEntry.file ['f'] (some 5)])) ['/'] 0 +
        ((dgetD (walk_and_collect ['/', 'r'] true [FSEntry.file ['f'] (some 5)]).2.1
            ['/'] []).map
          (fun c => dgetD (walk_and_collect ['/', 'r'] true
            [FSEntry.file ['f'] (some 5)]).1 c 0)).sum) := by
  have hOs : osWalk ['/', 'r'] true [FSEntry.file ['f'] (some 5)]
      = [⟨['/', 'r'], [], [(['f'], some 5)]⟩] := walkDir_cex1
  rw [walk_and_collect_true, walkDir_cex1, hOs]
  decide

/-- C1 amended: for every directory `d` in the `totalSize` map *other than
the root's derived parent* (the one spurious key the loop creates),
`totalSize[d] = ownSize[d] + Σ totalSize[c]` over `c ∈ children[d]`, with
absent entries read as `0` for `ownSize`, as the empty list for
`children[d]`, and as `0` for a child `c` missing from `totalSize`
(a symlinked, unreadable or empty child directory).  Stated for every
well-formed tree with clean entry names and a normalized root path; the
equation holds for keys and non-keys of the map alike, so in particular for
every key except the root's derived parent. -/
theorem C1_amended (root : PyStr) (ok : Bool) (es : List FSEntry)
    (hwf : wfFS es) (hp : normPath root) (d : PyStr)
    (hnp : d ≠ dirname (rstripSeps root)) :
    dgetD (walk_and_collect root ok es).1 d 0
      = dgetD (ownMap (osWalk root ok es)) d 0 +
        ((dgetD (walk_and_collect root ok es).2.1 d []).map
          (fun c => dgetD (walk_and_collect root ok es).1 c 0)).sum := by
  cases ok with
  | false => rfl
  | true =>
    have hosw : osWalk root true es = walkDir root es := rfl
    have hch : (walk_and_collect root true es).2.1 = childrenMap (walkDir root es) := rfl
    by_cases hw : ∃ t ∈ walkDir root es, t.dirpath = d
    · obtain ⟨t, ht, rfl⟩ := hw
      rw [hosw, hch, total_getD_eq_S root es hwf hp, S_walked root es hwf hp t ht]
      have hmaps : (dgetD (childrenMap (walkDir root es)) t.dirpath []).map
          (fun c => dgetD (walk_and_collect root true es).1 c 0)
          = (dgetD (childrenMap (walkDir root es)) t.dirpath []).map
            (S (sortBySepCount (allDirsOf (ownMap (walkDir root es))
              (childrenMap (walkDir root es)))) (ownMap (walkDir root es))) :=
        List.map_congr_left (fun c _ => total_getD_eq_S root es hwf hp c)
      rw [hmaps]
    · push_neg at hw
      have hnw : ∀ t ∈ walkDir root es, t.dirpath ≠ d := hw
      rw [hosw, hch, total_getD_eq_S root es hwf hp, S_unwalked root es hwf hp d hnw hnp]
      have hchnone : dictGet (childrenMap (walkDir root es)) d = none :=
        dictGet_childrenMap_not_mem _ d hnw
      have hownnone : dictGet (ownMap (walkDir root es)) d = none :=
        dictGet_ownMap_not_mem _ d hnw
      simp [dgetD, hchnone, hownnone]

/-- C1 amended, exercised concretely: the invariant holds at the scanned
root `/r` of the counterexample filesystem. -/
theorem C1_amended_witness :
    dgetD (walk_and_collect ['/', 'r'] true [FSEntry.file ['f'] (some 5)]).1 ['/', 'r'] 0
      = dgetD (ownMap (osWalk ['/', 'r'] true [FSEntry.file ['f'] (some 5)])) ['/', 'r'] 0 +
        ((dgetD (walk_and_collect ['/', 'r'] true [FSEntry.file ['f'] (some 5)]).2.1
            ['/', 'r'] []).map
          (fun c => dgetD (walk_and_collect ['/', 'r'] true
            [FSEntry.file ['f'] (some 5)]).1 c 0)).sum :=
  C1_amended ['/', 'r'] true [FSEntry.file ['f'] (some 5)] (by decide) (by decide)
    ['/', 'r'] (by decide)

/-! ### Claims C2 and C3 -/

/-- C2: scanning an empty root directory.  The spec's example demands
`totalSize[root] = 0`, `visitedCount = 1` and a single ranked entry
`(root, 0)`; the code indeed reports `visitedCount = 1`, but the root never
enters `own_size` or `children`, so `total_size` comes back *empty* — the
root is not a key, and the top-5 selection over it is the empty list.  The
source's own comment "Ensure all discovered directories exist in
total_size" (and the spec) make the intent clear; the `setdefault` loop
iterates over `set(total_size) | set(children)`, which misses every
visited-but-empty directory. -/
theorem C2_bug :
    (walk_and_collect ['/', 'r'] true []).2.2 = 1 ∧
    dictGet (walk_and_collect ['/', 'r'] true []).1 ['/', 'r'] = none ∧
    nlargest 5 (walk_and_collect ['/', 'r'] true []).1 = [] := by
  have hW : walkDir ['/', 'r'] [] = [⟨['/', 'r'], [], []⟩] := by
    rw [walkDir_eq, walkKids_nil]
    rfl
  rw [walk_and_collect_true, hW]
  decide

/-- C3: a directory that is enumerable but empty (here `/r/a`, a child of
the scanned root) is visited — `visitedCount = 2` — yet appears in neither
returned map: it is not a key of `total_size` (nor of `children`),
contradicting the claim that such directories appear with
`ownSize = totalSize = 0`. -/
theorem C3_bug :
    (walk_and_collect ['/', 'r'] true [FSEntry.dir ['a'] true []]).2.2 = 2 ∧
    dictGet (walk_and_collect ['/', 'r'] true [FSEntry.dir ['a'] true []]).1
      ['/', 'r', '/', 'a'] = none ∧
    dictGet (walk_and_collect ['/', 'r'] true [FSEntry.dir ['a'] true []]).2.1
      ['/', 'r', '/', 'a'] = none := by
  have hW : walkDir ['/', 'r'] [FSEntry.dir ['a'] true []]
      = [⟨['/', 'r'], [['a']], []⟩, ⟨['/', 'r', '/', 'a'], [], []⟩] := by
    rw [walkDir_eq, walkKids_dir, if_pos rfl, walkDir_eq, walkKids_nil, walkKids_nil]
    rfl
  rw [walk_and_collect_true, hW]
  decide

/-! ### Claim C4 -/

/-- The walk of a root holding one unreadable subdirectory, evaluated:
`os.walk` yields only the root's triple. -/
theorem walkDir_cex4 :
    walkDir ['/', 'r'] [FSEntry.dir ['a'] false []]
      = [⟨['/', 'r'], [['a']], []⟩] := by
  rw [walkDir_eq, walkKids_dir, if_neg (by simp), walkKids_nil]
  rfl

/-- C4 (as stated) is false: a reached directory whose enumeration raises
is *not* recorded as visited.  Scanning `/r` that contains one unreadable
subdirectory `a`: two directories are reached (`/r` and `/r/a`), but
`os.walk` yields no triple for `/r/a`, so `visitedCount = 1`, not 2 — and
`/r/a` gets no `ownSize`/`totalSize` entry at all (it is no key of the
returned map), rather than an entry of `0`. -/
theorem C4_counterexample :
    (walk_and_collect ['/', 'r'] true [FSEntry.dir ['a'] false []]).2.2 = 1 ∧
    dictGet (walk_and_collect ['/', 'r'] true [FSEntry.dir ['a'] false []]).1
      ['/', 'r', '/', 'a'] = none := by
  have hOs : osWalk ['/', 'r'] true [FSEntry.dir ['a'] false []]
      = [⟨['/', 'r'], [['a']], []⟩] := walkDir_cex4
  rw [walk_and_collect_true, walkDir_cex4]
  decide

/-- C4 amended: a reached directory whose enumeration raises a permission
or I/O error yields no walk triple at all: it is *not* counted in
`visitedCount` (which equals the number of yielded triples), it has no
entry in the returned `totalSize` or `children` maps, and it appears only
as a recorded child in its walked parent's `children` list; the error
never propagates (the scan is a total function). -/
theorem C4_amended (root : PyStr) (es : List FSEntry) (hwf : wfFS es)
    (hp : normPath root) (c : PyStr) (hc : c ∈ badDirs root es) :
    (∀ t ∈ osWalk root true es, t.dirpath ≠ c) ∧
    (walk_and_collect root true es).2.2 = (osWalk root true es).length ∧
    dictGet (walk_and_collect root true es).1 c = none ∧
    dictGet (walk_and_collect root true es).2.1 c = none ∧
    ∃ q, c ∈ dgetD (walk_and_collect root true es).2.1 q [] := by
  have M := walk_master root es hwf hp
  rw [badDirs_eq] at hc
  have hosw : osWalk root true es = walkDir root es := rfl
  have hnw : ∀ t ∈ walkDir root es, t.dirpath ≠ c := fun t ht => M.badNotWalked c hc t ht
  have hlen : root.length < c.length := by
    rcases M.badUnder c hc with ⟨nm, hcn, -, hu⟩
    exact underName_length root nm c hp hcn hu
  refine ⟨by rw [hosw]; exact hnw, rfl, ?_, ?_, ?_⟩
  · -- not a key of total_size
    rw [walk_and_collect_true]
    show dictGet (List.foldl setdefaultZero _ _) c = none
    rw [dictGet_eq_none_iff]
    intro hkey
    rcases (mem_dkeys_setdefault_fold _ _ c).mp hkey with hkey1 | hkeyA
    · rcases (mem_dkeys_foldl_procOne _ _ c).mp hkey1 with hkeyOwn | ⟨x, hxL, htargetx⟩
      · rcases mem_dkeys_ownMap _ c hkeyOwn with ⟨t, ht, hpath⟩
        exact hnw t ht hpath
      · rcases allDirs_walked root es x ((mem_sortBySepCount _ x).mp hxL)
          with ⟨tx, htx, hxpath⟩
        rw [← hxpath] at htargetx
        rcases target_dichotomy root es hwf hp tx htx c htargetx
          with ⟨hxroot, -⟩ | ⟨t', ht', hz, -⟩
        · rw [hxroot] at htargetx
          have := addTarget_length root c htargetx
          omega
        · exact hnw t' ht' hz.symm
    · rcases allDirs_walked root es c hkeyA with ⟨t, ht, hpath⟩
      exact hnw t ht hpath
  · -- not a key of children
    rw [walk_and_collect_true]
    show dictGet (childrenMap (walkDir root es)) c = none
    exact dictGet_childrenMap_not_mem _ c hnw
  · -- recorded as a child of its walked parent
    rcases M.badEdge c hc with ⟨t', ht', -, hchild⟩
    refine ⟨t'.dirpath, ?_⟩
    have hdn : t'.dirnames ≠ [] := by
      intro h0
      rw [h0] at hchild
      simp at hchild
    have h0 := dictGet_childrenMap (walkDir root es) t' ht' M.nodupPaths
    rw [if_neg hdn] at h0
    rw [walk_and_collect_true]
    show c ∈ dgetD (childrenMap (walkDir root es)) t'.dirpath []
    simp only [dgetD, h0, Option.getD_some]
    exact hchild

/-- C4 amended, exercised concretely on the counterexample filesystem:
the unreadable `/r/a` is unvisited, absent from both maps, and recorded as
a child of `/r`. -/
theorem C4_amended_witness :
    (∀ t ∈ osWalk ['/', 'r'] true [FSEntry.dir ['a'] false []],
      t.dirpath ≠ ['/', 'r', '/', 'a']) ∧
    (walk_and_collect ['/', 'r'] true [FSEntry.dir ['a'] false []]).2.2
      = (osWalk ['/', 'r'] true [FSEntry.dir ['a'] false []]).length ∧
    dictGet (walk_and_collect ['/', 'r'] true [FSEntry.dir ['a'] false []]).1
      ['/', 'r', '/', 'a'] = none ∧
    dictGet (walk_and_collect ['/', 'r'] true [FSEntry.dir ['a'] false []]).2.1
      ['/', 'r', '/', 'a'] = none ∧
    ∃ q, ['/', 'r', '/', 'a'] ∈
      dgetD (walk_and_collect ['/', 'r'] true [FSEntry.dir ['a'] false []]).2.1 q [] :=
  C4_amended ['/', 'r'] [FSEntry.dir ['a'] false []] (by decide) (by decide)
    ['/', 'r', '/', 'a']
    (by rw [badDirs_eq, badKids_dir, if_neg (by simp), badKids_nil]
        exact List.mem_append_left _ (List.mem_singleton.mpr rfl))

/-! ### Claim C5 -/

/-- The size the code actually accumulates for one directory listing: every
non-directory entry (regular file or symlink-to-file, the lookup follows
links) contributes its successfully looked-up size; an entry whose lookup
raises contributes `0`, and the remaining entries are still summed. -/
def codeOwnSize (es : List FSEntry) : Nat :=
  (es.map (fun e => match e with
    | .file _ (some s) => s
    | .symlinkFile _ (some s) => s
    | _ => 0)).sum

theorem sumFiles_filterMap (es : List FSEntry) :
    sumFiles (es.filterMap entryFile?) = codeOwnSize es := by
  induction es with
  | nil => rfl
  | cons e rest ih =>
    rcases e with ⟨n, s⟩ | ⟨n, ok, sub⟩ | n | ⟨n, s⟩
    · rcases s with - | v <;>
        simp [List.filterMap_cons, entryFile?, sumFiles, codeOwnSize] at ih ⊢ <;> omega
    · simpa [List.filterMap_cons, entryFile?, sumFiles, codeOwnSize] using ih
    · simpa [List.filterMap_cons, entryFile?, sumFiles, codeOwnSize] using ih
    · rcases s with - | v <;>
        simp [List.filterMap_cons, entryFile?, sumFiles, codeOwnSize] at ih ⊢ <;> omega

/-- The walk of a root holding one 7-byte symlinked file, evaluated. -/
theorem walkDir_cex5 :
    walkDir ['/', 'r'] [FSEntry.symlinkFile ['s'] (some 7)]
      = [⟨['/', 'r'], [], [(['s'], some 7)]⟩] := by
  rw [walkDir_eq, walkKids_symlinkFile, walkKids_nil]
  rfl

/-- C5 (as stated) is false: `ownSize` is *not* the sum of non-symlink
files only.  `os.path.getsize` follows symlinks, so a symlink to a file
contributes its target's size.  Scanning `/r` containing one symlink `s`
to a 7-byte file yields `own_size[/r] = 7`, while the sum of the byte
sizes of its direct non-symlink files (per the spec's words, computed by
`specOwnSize`) is `0`. -/
theorem C5_counterexample :
    dgetD (ownMap (osWalk ['/', 'r'] true [FSEntry.symlinkFile ['s'] (some 7)]))
      ['/', 'r'] 0 = 7 ∧
    specOwnSize [FSEntry.symlinkFile ['s'] (some 7)] = 0 := by
  have hOs : osWalk ['/', 'r'] true [FSEntry.symlinkFile ['s'] (some 7)]
      = [⟨['/', 'r'], [], [(['s'], some 7)]⟩] := walkDir_cex5
  rw [hOs]
  decide

/-- C5 amended: for every scanned directory, `ownSize` equals the sum of
the successfully looked-up sizes of its direct *non-directory* entries
(regular files and symlinks to files, which the size lookup follows); an
entry whose size lookup fails is skipped, contributes `0`, and does not
abort the enumeration of the remaining entries, which are still summed. -/
theorem C5_amended (root : PyStr) (es : List FSEntry) (hwf : wfFS es)
    (hp : normPath root) :
    dgetD (ownMap (osWalk root true es)) root 0 = codeOwnSize es := by
  have hosw : osWalk root true es = walkDir root es := rfl
  have hnd := (walk_master root es hwf hp).nodupPaths
  have hhead := dictGet_ownMap (walkDir root es) _ (head_mem_walkDir root es) hnd
  rw [hosw]
  by_cases hf : es.filterMap entryFile? = []
  · rw [if_pos hf] at hhead
    show dgetD (ownMap (walkDir root es)) root 0 = codeOwnSize es
    have h0 : dgetD (ownMap (walkDir root es)) root 0 = 0 := by
      simp [dgetD, hhead]
    rw [h0, ← sumFiles_filterMap, hf]
    rfl
  · rw [if_neg hf] at hhead
    show dgetD (ownMap (walkDir root es)) root 0 = codeOwnSize es
    rw [← sumFiles_filterMap]
    simp [dgetD, hhead]

/-- C5 amended, exercised concretely: a 2-byte file, an unreadable file
(skipped, contributing 0 without aborting the rest), and a symlink to a
7-byte file sum to 9. -/
theorem C5_amended_witness :
    dgetD (ownMap (osWalk ['/', 'r'] true
      [FSEntry.file ['f'] (some 2), FSEntry.file ['g'] none,
       FSEntry.symlinkFile ['s'] (some 7)])) ['/', 'r'] 0
    = codeOwnSize [FSEntry.file ['f'] (some 2), FSEntry.file ['g'] none,
       FSEntry.symlinkFile ['s'] (some 7)] :=
  C5_amended ['/', 'r'] _ (by decide) (by decide)

/-! ### Claim C6 -/

theorem pairwise_of_forall_mem {α : Type} {R : α → α → Prop} (l : List α)
    (h : ∀ a ∈ l, ∀ b ∈ l, R a b) : l.Pairwise R := by
  induction l with
  | nil => exact List.Pairwise.nil
  | cons a l ih =>
    refine List.Pairwise.cons ?_ (ih ?_)
    · intro b hb
      exact h a (List.mem_cons_self a l) b (List.mem_cons_of_mem a hb)
    · intro x hx y hy
      exact h x (List.mem_cons_of_mem a hx) y (List.mem_cons_of_mem a hy)

/-- C6: for every `total_size` item list and positive `n`, the top-`n`
selection is sorted by size descending and has length
`min(n, number of directories)`; and ties are broken by the input (map
iteration) order — the full ranking restricted to any fixed size `s` is
exactly the input list restricted to `s`, which makes the tie order stable
for a fixed input map. -/
theorem C6_ranking (items : List (PyStr × Nat)) (n : Nat) (hn : 1 ≤ n) :
    (nlargest n items).length = min n items.length ∧
    (nlargest n items).Pairwise (fun a b => b.2 ≤ a.2) ∧
    ∀ s : Nat, (nlargest items.length items).filter (fun q => q.2 = s)
      = items.filter (fun q => q.2 = s) := by
  haveI hTot : IsTotal (PyStr × Nat) (fun a b => b.2 ≤ a.2) :=
    ⟨fun a b => le_total b.2 a.2⟩
  haveI hTrans : IsTrans (PyStr × Nat) (fun a b => b.2 ≤ a.2) :=
    ⟨fun a b c h1 h2 => le_trans h2 h1⟩
  have hperm := List.perm_insertionSort (fun a b : PyStr × Nat => b.2 ≤ a.2) items
  refine ⟨?_, ?_, ?_⟩
  · unfold nlargest
    rw [List.length_take, hperm.length_eq]
  · unfold nlargest
    exact (List.sorted_insertionSort (fun a b : PyStr × Nat => b.2 ≤ a.2) items).sublist
      (List.take_sublist _ _)
  · intro s
    have hfull : nlargest items.length items
        = List.insertionSort (fun a b : PyStr × Nat => b.2 ≤ a.2) items := by
      unfold nlargest
      rw [← hperm.length_eq, List.take_length]
    rw [hfull]
    have hc : (items.filter (fun q => q.2 = s)).Pairwise
        (fun a b : PyStr × Nat => b.2 ≤ a.2) := by
      apply pairwise_of_forall_mem
      intro a ha b hb
      have ha2 : a.2 = s := of_decide_eq_true (List.mem_filter.mp ha).2
      have hb2 : b.2 = s := of_decide_eq_true (List.mem_filter.mp hb).2
      rw [ha2, hb2]
    have hsub : (items.filter (fun q => q.2 = s)).Sublist
        (List.insertionSort (fun a b : PyStr × Nat => b.2 ≤ a.2) items) :=
      List.sublist_insertionSort hc (List.filter_sublist items)
    have hsub2 : (items.filter (fun q => q.2 = s)).Sublist
        ((List.insertionSort (fun a b : PyStr × Nat => b.2 ≤ a.2) items).filter
          (fun q => q.2 = s)) := by
      have := hsub.filter (fun q => decide (q.2 = s))
      rwa [List.filter_filter, (by
        funext q
        cases hq : (decide (q.2 = s)) <;> simp [hq] :
          (fun q : PyStr × Nat => decide (q.2 = s) && decide (q.2 = s))
            = (fun q : PyStr × Nat => decide (q.2 = s)))] at this
    have hlen : ((List.insertionSort (fun a b : PyStr × Nat => b.2 ≤ a.2) items).filter
        (fun q => q.2 = s)).length = (items.filter (fun q => q.2 = s)).length :=
      (hperm.filter _).length_eq
    exact (hsub2.eq_of_length hlen.symm).symm

/-- C6 exercised concretely on a three-item map with a tie. -/
theorem C6_ranking_witness :
    (nlargest 2 [(['a'], 1), (['b'], 3), (['c'], 3)]).length
        = min 2 [(['a'], 1), (['b'], 3), (['c'], 3)].length ∧
    (nlargest 2 [(['a'], 1), (['b'], 3), (['c'], 3)]).Pairwise
        (fun a b => b.2 ≤ a.2) ∧
    ∀ s : Nat, (nlargest [(['a'], 1), (['b'], 3), (['c'], 3)].length
        [(['a'], 1), (['b'], 3), (['c'], 3)]).filter (fun q => q.2 = s)
      = [(['a'], 1), (['b'], 3), (['c'], 3)].filter (fun q => q.2 = s) :=
  C6_ranking [(['a'], 1), (['b'], 3), (['c'], 3)] 2 (by decide)

/-! ### Claims C7, C8 and C10 -/

theorem printNode_size (ordered : Dict (List PyStr)) (total : Dict Nat)
    (dl pl : Nat) (node : PyStr) (depth : Nat) :
    (printNode ordered total dl pl node depth).size = dgetD total node 0 := by
  rw [printNode]
  split <;> rfl

theorem printNode_depth (ordered : Dict (List PyStr)) (total : Dict Nat)
    (dl pl : Nat) (node : PyStr) (depth : Nat) :
    (printNode ordered total dl pl node depth).depth = depth := by
  rw [printNode]
  split <;> rfl

theorem dictGet_map_values {V W : Type} (m : Dict V) (f : V → W) (k : PyStr) :
    dictGet (m.map (fun q => (q.1, f q.2))) k = (dictGet m k).map f := by
  induction m with
  | nil => rfl
  | cons a m ih =>
    rw [List.map_cons, dictGet_cons, dictGet_cons]
    by_cases h : a.1 = k <;> simp [h, ih]

theorem build_largest_sorted (children : Dict (List PyStr)) (total : Dict Nat)
    (node : PyStr) :
    (dgetD (build_largest_child_map children total) node []).Pairwise
      (fun a b => dgetD total b 0 ≤ dgetD total a 0) := by
  haveI : IsTotal PyStr (fun a b => dgetD total b 0 ≤ dgetD total a 0) :=
    ⟨fun a b => le_total (dgetD total b 0) (dgetD total a 0)⟩
  haveI : IsTrans PyStr (fun a b => dgetD total b 0 ≤ dgetD total a 0) :=
    ⟨fun a b c h1 h2 => le_trans h2 h1⟩
  unfold build_largest_child_map
  rw [dgetD, dictGet_map_values]
  cases hg : dictGet children node with
  | none => exact List.Pairwise.nil
  | some l =>
    simp only [Option.map_some', Option.getD_some]
    exact List.sorted_insertionSort _ l

theorem printNode_bounds (ordered : Dict (List PyStr)) (total : Dict Nat)
    (dl pl : Nat) (hpl : 1 ≤ pl)
    (hsorted : ∀ nd : PyStr, (dgetD ordered nd []).Pairwise
      (fun a b => dgetD total b 0 ≤ dgetD total a 0)) :
    ∀ (k : Nat) (node : PyStr) (depth : Nat), dl - depth ≤ k →
    ∀ t ∈ allSubtrees (printNode ordered total dl pl node depth),
      t.kids.length ≤ pl ∧ (dl ≤ t.depth → t.kids = []) ∧
      (t.kids.map (fun x => x.size)).Pairwise (fun a b => b ≤ a) := by
  intro k
  induction k with
  | zero =>
    intro node depth hk t ht
    have hdl : dl ≤ depth := by omega
    rw [printNode, if_pos hdl, allSubtrees] at ht
    simp only [List.attach_nil, List.flatMap_nil, List.mem_singleton] at ht
    subst ht
    exact ⟨by simp, fun _ => rfl, List.Pairwise.nil⟩
  | succ k ih =>
    intro node depth hk t ht
    by_cases hdl : dl ≤ depth
    · rw [printNode, if_pos hdl, allSubtrees] at ht
      simp only [List.attach_nil, List.flatMap_nil, List.mem_singleton] at ht
      subst ht
      exact ⟨by simp, fun _ => rfl, List.Pairwise.nil⟩
    · rw [printNode, if_neg hdl, allSubtrees] at ht
      rcases List.mem_cons.mp ht with rfl | hkid
      · refine ⟨?_, ?_, ?_⟩
        · simp only [List.length_map, List.length_take]
          omega
        · intro h
          exact absurd h hdl
        · have hmap : (((dgetD ordered node []).take pl).map
              (fun c => printNode ordered total dl pl c (depth + 1))).map
                (fun x => x.size)
              = ((dgetD ordered node []).take pl).map (fun c => dgetD total c 0) := by
            rw [List.map_map]
            exact List.map_congr_left
              (fun c _ => printNode_size ordered total dl pl c (depth + 1))
          show ((((dgetD ordered node []).take pl).map
            (fun c => printNode ordered total dl pl c (depth + 1))).map
              (fun x => x.size)).Pairwise (fun a b => b ≤ a)
          rw [hmap]
          have hsort := (hsorted node).sublist (List.take_sublist pl _)
          exact hsort.map (fun c => dgetD total c 0) (fun a b h => h)
      · rcases List.mem_flatMap.mp hkid with ⟨c, hc, htc⟩
        rcases List.mem_map.mp c.2 with ⟨cp, hcp, hcc⟩
        rw [← hcc] at htc
        have hk' : dl - (depth + 1) ≤ k := by omega
        exact ih cp (depth + 1) hk' t htc

/-- C7: for every children map, total-size map, depth limit and per-level
limit ≥ 1, every node of the rendered tree shows at most `perLevelLimit`
children; a node at depth `depthLimit` (or beyond) is printed with no
children; and each node's printed children are ordered by `totalSize`
descending. -/
theorem C7_tree_bounds (children : Dict (List PyStr)) (total_size : Dict Nat)
    (depth_limit per_level_limit : Nat) (root : PyStr) (hpl : 1 ≤ per_level_limit) :
    ∀ t ∈ allSubtrees (print_tree root children total_size depth_limit per_level_limit),
      t.kids.length ≤ per_level_limit ∧
      (depth_limit ≤ t.depth → t.kids = []) ∧
      (t.kids.map (fun x => x.size)).Pairwise (fun a b => b ≤ a) := by
  unfold print_tree
  exact printNode_bounds _ _ _ _ hpl
    (build_largest_sorted children total_size) depth_limit root 0 (by omega)

/-- C7 exercised concretely at the root node of a rendered two-child tree
with limits 3 and 1. -/
theorem C7_tree_bounds_witness :
    (print_tree ['/', 'r']
        [(['/', 'r'], [['/', 'r', '/', 'a'], ['/', 'r', '/', 'b']])]
        [(['/', 'r', '/', 'b'], 9)] 3 1).kids.length ≤ 1 ∧
    (3 ≤ (print_tree ['/', 'r']
        [(['/', 'r'], [['/', 'r', '/', 'a'], ['/', 'r', '/', 'b']])]
        [(['/', 'r', '/', 'b'], 9)] 3 1).depth →
      (print_tree ['/', 'r']
        [(['/', 'r'], [['/', 'r', '/', 'a'], ['/', 'r', '/', 'b']])]
        [(['/', 'r', '/', 'b'], 9)] 3 1).kids = []) ∧
    ((print_tree ['/', 'r']
        [(['/', 'r'], [['/', 'r', '/', 'a'], ['/', 'r', '/', 'b']])]
        [(['/', 'r', '/', 'b'], 9)] 3 1).kids.map (fun x => x.size)).Pairwise
      (fun a b => b ≤ a) :=
  C7_tree_bounds [(['/', 'r'], [['/', 'r', '/', 'a'], ['/', 'r', '/', 'b']])]
    [(['/', 'r', '/', 'b'], 9)] 3 1 ['/', 'r'] (by decide)
    (print_tree ['/', 'r']
      [(['/', 'r'], [['/', 'r', '/', 'a'], ['/', 'r', '/', 'b']])]
      [(['/', 'r', '/', 'b'], 9)] 3 1)
    (by rw [allSubtrees]; exact List.mem_cons_self _ _)

/-- C8: in the aggregation loop, a directory whose derived parent (trim
trailing separators, then dirname) is empty or equal to the directory
itself performs no addition — the map is returned unchanged — so a
filesystem root (for example `/`, whose stripped dirname is empty) never
adds its own total to itself. -/
theorem C8_self_parent_guard (m : Dict Nat) (d : PyStr)
    (h : dirname (rstripSeps d) = [] ∨ dirname (rstripSeps d) = d) :
    procOne m d = m := by
  have hnone : addTarget d = none := by
    unfold addTarget
    rw [if_neg]
    rintro ⟨h1, h2⟩
    rcases h with h3 | h3
    · exact h1 h3
    · exact h2 h3.symm
  exact procOne_none m d hnone

/-- C8 exercised at the filesystem root `/`: its stripped dirname is empty
and its stored total is untouched by its own aggregation step. -/
theorem C8_self_parent_guard_witness :
    procOne [(['/'], 5)] ['/'] = [(['/'], 5)] :=
  C8_self_parent_guard [(['/'], 5)] ['/'] (Or.inl (by decide))

/-- C10: the tree renderer is total on its inputs.  Every lookup uses a
defaulted `get`: a node absent from `total_size` is printed with size `0`,
and a node absent from `children` is printed with no children; no lookup
can fail. -/
theorem C10_renderer_total (children : Dict (List PyStr)) (total_size : Dict Nat)
    (depth_limit per_level_limit : Nat) (node : PyStr) (depth : Nat) :
    (dictGet total_size node = none →
      (printNode (build_largest_child_map children total_size) total_size
        depth_limit per_level_limit node depth).size = 0) ∧
    (dictGet children node = none →
      (printNode (build_largest_child_map children total_size) total_size
        depth_limit per_level_limit node depth).kids = []) := by
  constructor
  · intro h
    rw [printNode_size]
    simp [dgetD, h]
  · intro h
    have hordered : dgetD (build_largest_child_map children total_size) node [] = [] := by
      unfold build_largest_child_map
      rw [dgetD, dictGet_map_values, h]
      rfl
    rw [printNode]
    split
    · rfl
    · simp [hordered]

/-- C10 exercised concretely at a node in neither map. -/
theorem C10_renderer_total_witness :
    (printNode (build_largest_child_map [] [(['a'], 3)]) [(['a'], 3)] 3 8
      ['z'] 0).size = 0 ∧
    (printNode (build_largest_child_map [] [(['a'], 3)]) [(['a'], 3)] 3 8
      ['z'] 0).kids = [] :=
  ⟨(C10_renderer_total [] [(['a'], 3)] 3 8 ['z'] 0).1 (by decide),
   (C10_renderer_total [] [(['a'], 3)] 3 8 ['z'] 0).2 (by decide)⟩

/-! ### Claim C9 -/

theorem nodup_eq_singleton (l : List PyStr) (a : PyStr) (hnd : l.Nodup)
    (h : ∀ x, x ∈ l ↔ x = a) : l = [a] := by
  cases l with
  | nil => exact absurd ((h a).mpr rfl) (List.not_mem_nil a)
  | cons x rest =>
    have hx : x = a := (h x).mp (List.mem_cons_self x rest)
    subst hx
    cases rest with
    | nil => rfl
    | cons y r =>
      have hy : y = x := (h y).mp (List.mem_cons_of_mem x (List.mem_cons_self y r))
      subst hy
      exact absurd (List.mem_cons_self y r) (List.nodup_cons.mp hnd).1

/-- C9: in any scan where some visited directory has a file or a
subdirectory, and the root's derived parent (strip trailing separators,
then dirname) is non-empty and differs from the root, the returned
`total_size` map contains the root's parent as a key — a path no walked
triple has, i.e. a directory outside the scanned subtree — with value
equal to the root's own total, and that phantom entry appears in the
full-length top-N ranking of the map. -/
theorem C9_phantom_parent (root : PyStr) (es : List FSEntry)
    (hwf : wfFS es) (hp : normPath root)
    (hne : ∃ t ∈ osWalk root true es, t.dirnames ≠ [] ∨ t.files ≠ [])
    (hpar : dirname (rstripSeps root) ≠ [] ∧ dirname (rstripSeps root) ≠ root) :
    (∀ t ∈ osWalk root true es, t.dirpath ≠ dirname (rstripSeps root)) ∧
    dictGet (walk_and_collect root true es).1 (dirname (rstripSeps root))
      = some (dgetD (walk_and_collect root true es).1 root 0) ∧
    (dirname (rstripSeps root), dgetD (walk_and_collect root true es).1 root 0)
      ∈ nlargest (walk_and_collect root true es).1.length
          (walk_and_collect root true es).1 := by
  have hOs : osWalk root true es = walkDir root es := rfl
  have M := walk_master root es hwf hp
  have hnd := M.nodupPaths
  set pr := dirname (rstripSeps root) with hpr
  have htarget : addTarget root = some pr := by
    unfold addTarget
    rw [if_pos ⟨hpar.1, fun h => hpar.2 h.symm⟩]
  have hNW : ∀ t ∈ walkDir root es, t.dirpath ≠ pr :=
    root_parent_not_walked root es hwf hp pr htarget
  have hrootA : root ∈ allDirsOf (ownMap (walkDir root es))
      (childrenMap (walkDir root es)) := by
    rw [mem_allDirs_iff]
    rcases hne with ⟨t, ht, hcase⟩
    rw [hOs] at ht
    rcases mem_walkDir_elim root es t ht with heq | hkid
    · have hpath : t.dirpath = root := by rw [heq]
      rcases hcase with hd | hf
      · right
        rw [← dictGet_isSome_iff]
        have hv := dictGet_childrenMap (walkDir root es) t ht hnd
        rw [if_neg hd, hpath] at hv
        rw [hv]
        rfl
      · left
        rw [← dictGet_isSome_iff]
        have hv := dictGet_ownMap (walkDir root es) t ht hnd
        rw [if_neg hf, hpath] at hv
        rw [hv]
        rfl
    · right
      rw [← dictGet_isSome_iff]
      rcases M.kidShape t hkid with ⟨nm, sub, hentry, -, -⟩
      have hmemd : nm ∈ es.filterMap entryDirname? :=
        List.mem_filterMap.mpr ⟨FSEntry.dir nm true sub, hentry, rfl⟩
      have hv := dictGet_childrenMap (walkDir root es)
        ⟨root, es.filterMap entryDirname?, es.filterMap entryFile?⟩
        (head_mem_walkDir root es) hnd
      rw [if_neg (fun h : es.filterMap entryDirname? = []
        => List.not_mem_nil nm (h ▸ hmemd))] at hv
      rw [show (⟨root, es.filterMap entryDirname?, es.filterMap entryFile?⟩
        : WalkTriple).dirpath = root from rfl] at hv
      rw [hv]
      rfl
  have hrootL : root ∈ sortBySepCount (allDirsOf (ownMap (walkDir root es))
      (childrenMap (walkDir root es))) := (mem_sortBySepCount _ root).mpr hrootA
  have hmemf : ∀ x, x ∈ (sortBySepCount (allDirsOf (ownMap (walkDir root es))
      (childrenMap (walkDir root es)))).filter (fun c => addTarget c = some pr)
      ↔ x = root := by
    intro x
    constructor
    · intro hx
      rcases List.mem_filter.mp hx with ⟨hxL, hdec⟩
      have hxt : addTarget x = some pr := of_decide_eq_true hdec
      rcases allDirs_walked root es x ((mem_sortBySepCount _ x).mp hxL) with ⟨t, ht, rfl⟩
      rcases target_dichotomy root es hwf hp t ht pr hxt with ⟨h1, -⟩ | ⟨t', ht', heq', -⟩
      · exact h1
      · exact absurd heq'.symm (hNW t' ht')
    · rintro rfl
      exact List.mem_filter.mpr ⟨hrootL, decide_eq_true htarget⟩
  have hfilter : (sortBySepCount (allDirsOf (ownMap (walkDir root es))
      (childrenMap (walkDir root es)))).filter (fun c => addTarget c = some pr)
      = [root] :=
    nodup_eq_singleton _ root
      ((nodup_sortBySepCount_allDirs root es).filter _) hmemf
  have hSval : S (sortBySepCount (allDirsOf (ownMap (walkDir root es))
        (childrenMap (walkDir root es)))) (ownMap (walkDir root es)) pr
      = S (sortBySepCount (allDirsOf (ownMap (walkDir root es))
        (childrenMap (walkDir root es)))) (ownMap (walkDir root es)) root := by
    rw [S_eq, hfilter]
    have hown : dgetD (ownMap (walkDir root es)) pr 0 = 0 := by
      have hg : dictGet (ownMap (walkDir root es)) pr = none :=
        dictGet_ownMap_not_mem _ pr hNW
      simp [dgetD, hg]
    rw [hown]
    simp
  have hkey : pr ∈ dkeys (walk_and_collect root true es).1 := by
    show pr ∈ dkeys ((allDirsOf (ownMap (walkDir root es))
      (childrenMap (walkDir root es))).foldl setdefaultZero
        ((sortBySepCount (allDirsOf (ownMap (walkDir root es))
          (childrenMap (walkDir root es)))).foldl procOne (ownMap (walkDir root es))))
    rw [mem_dkeys_setdefault_fold]
    left
    rw [mem_dkeys_foldl_procOne]
    right
    exact ⟨root, hrootL, htarget⟩
  have hb : dictGet (walk_and_collect root true es).1 pr
      = some (dgetD (walk_and_collect root true es).1 root 0) := by
    rw [dictGet_eq_some_getD _ pr hkey]
    refine congrArg some ?_
    rw [total_getD_eq_S root es hwf hp pr, total_getD_eq_S root es hwf hp root]
    exact hSval
  refine ⟨hNW, hb, ?_⟩
  have hmem : (pr, dgetD (walk_and_collect root true es).1 root 0)
      ∈ (walk_and_collect root true es).1 := dictGet_mem _ _ _ hb
  unfold nlargest
  rw [List.take_of_length_le
    (le_of_eq ((List.perm_insertionSort _ _).length_eq))]
  exact (List.perm_insertionSort _ _).mem_iff.mpr hmem

/-- C9 exercised on the root `/r` holding one 5-byte file: the map gains
the phantom key `/`, valued like `/r`, and ranked with it. -/
theorem C9_phantom_parent_witness :
    (∀ t ∈ osWalk ['/', 'r'] true [FSEntry.file ['f'] (some 5)],
      t.dirpath ≠ dirname (rstripSeps ['/', 'r'])) ∧
    dictGet (walk_and_collect ['/', 'r'] true [FSEntry.file ['f'] (some 5)]).1
        (dirname (rstripSeps ['/', 'r']))
      = some (dgetD (walk_and_collect ['/', 'r'] true
          [FSEntry.file ['f'] (some 5)]).1 ['/', 'r'] 0) ∧
    (dirname (rstripSeps ['/', 'r']),
      dgetD (walk_and_collect ['/', 'r'] true [FSEntry.file ['f'] (some 5)]).1
        ['/', 'r'] 0)
      ∈ nlargest (walk_and_collect ['/', 'r'] true
            [FSEntry.file ['f'] (some 5)]).1.length
          (walk_and_collect ['/', 'r'] true [FSEntry.file ['f'] (some 5)]).1 :=
  C9_phantom_parent ['/', 'r'] [FSEntry.file ['f'] (some 5)] (by decide) (by decide)
    ⟨⟨['/', 'r'], [], [(['f'], some 5)]⟩, by
      show _ ∈ walkDir ['/', 'r'] [FSEntry.file ['f'] (some 5)]
      have hW : walkDir ['/', 'r'] [FSEntry.file ['f'] (some 5)]
          = [⟨['/', 'r'], [], [(['f'], some 5)]⟩] := by
        rw [walkDir_eq, walkKids_file, walkKids_nil]
        rfl
      rw [hW]
      exact List.mem_singleton.mpr rfl,
     Or.inr (by decide)⟩
    (by decide)
